import Mathlib

/-!
Verification of the `mediatype` library (media-type parsing, comparison and
re-serialization).

The repository provides two Rust source files, `media_type.rs` (the borrowed,
mutable `MediaType` view) and `media_type_buf.rs` (the owned, immutable
`MediaTypeBuf`).  Both delegate tokenization and the case-insensitive identity
model to sibling modules (`parse`, `name`, `value`, `params`, `error`) that are
not part of the provided sources; those parts are modelled here from the
specification (grammar §4.1, identity model §4.2, data model §3), constrained
additionally by the doctests and unit tests embedded in the two provided
files.  Strings are modelled as lists of characters; machine indices are
replaced by direct slicing on those lists.
-/

namespace Mediatype

/-- A string, modelled as a list of characters. -/
abbrev Str := List Char

/-- Modelled from the spec: the structural-token character set of §3
("letters, digits, and a fixed set of punctuation symbols").  The fixed
punctuation set chosen here is `! # $ & - ^ _ .` together with `+` (which §4.1
allows inside a subtype segment); the structural separators `/ ; = "` and
whitespace are excluded, as §4.1 requires. -/
def isTokenChar (c : Char) : Bool :=
  c.isAlphanum || c = '!' || c = '#' || c = '$' || c = '&' ||
    c = '-' || c = '^' || c = '_' || c = '.' || c = '+'

/-- Modelled from the spec: the unquoted parameter-value character set (§3,
§4.1); modelled as the structural-token set.  A value may instead be a quoted
string, which is handled separately by the scanner. -/
def isValueChar (c : Char) : Bool := isTokenChar c

/-- Modelled from the spec: optional whitespace (`OWS`, §4.1). -/
def isOWS (c : Char) : Bool := c = ' ' || c = '\t'

/-- Modelled from the spec: ASCII case folding (§4.2): ASCII capital letters
are mapped to the corresponding small letters and every other character is
fixed ("no locale awareness, no Unicode case folding"). -/
def asciiLower : Char → Char
  | 'A' => 'a' | 'B' => 'b' | 'C' => 'c' | 'D' => 'd' | 'E' => 'e'
  | 'F' => 'f' | 'G' => 'g' | 'H' => 'h' | 'I' => 'i' | 'J' => 'j'
  | 'K' => 'k' | 'L' => 'l' | 'M' => 'm' | 'N' => 'n' | 'O' => 'o'
  | 'P' => 'p' | 'Q' => 'q' | 'R' => 'r' | 'S' => 's' | 'T' => 't'
  | 'U' => 'u' | 'V' => 'v' | 'W' => 'w' | 'X' => 'x' | 'Y' => 'y'
  | 'Z' => 'z'
  | c => c

/-- Case folding of a whole string (§4.2). -/
def foldStr (s : Str) : Str := s.map asciiLower

/-- The ASCII capital letters, as a decidable test. -/
def isUpperAZ (c : Char) : Bool :=
  c = 'A' || c = 'B' || c = 'C' || c = 'D' || c = 'E' || c = 'F' || c = 'G' ||
  c = 'H' || c = 'I' || c = 'J' || c = 'K' || c = 'L' || c = 'M' || c = 'N' ||
  c = 'O' || c = 'P' || c = 'Q' || c = 'R' || c = 'S' || c = 'T' || c = 'U' ||
  c = 'V' || c = 'W' || c = 'X' || c = 'Y' || c = 'Z'

theorem asciiLower_of_not_upperAZ {c : Char} (h : isUpperAZ c = false) :
    asciiLower c = c := by
  rw [asciiLower.eq_def]
  split <;> simp_all [isUpperAZ]

theorem isUpperAZ_asciiLower (c : Char) : isUpperAZ (asciiLower c) = false := by
  rw [asciiLower.eq_def]
  split <;> simp_all [isUpperAZ]

theorem asciiLower_idem (c : Char) : asciiLower (asciiLower c) = asciiLower c :=
  asciiLower_of_not_upperAZ (isUpperAZ_asciiLower c)

theorem foldStr_idem (s : Str) : foldStr (foldStr s) = foldStr s := by
  simp [foldStr, Function.comp, asciiLower_idem]

theorem asciiLower_isTokenChar (c : Char) :
    isTokenChar (asciiLower c) = isTokenChar c := by
  rw [asciiLower.eq_def]
  split <;> first | rfl | simp_all

theorem asciiLower_isOWS (c : Char) : isOWS (asciiLower c) = isOWS c := by
  rw [asciiLower.eq_def]
  split <;> first | rfl | simp_all

theorem asciiLower_eq_slash (c : Char) : (asciiLower c = '/') = (c = '/') := by
  rw [asciiLower.eq_def]
  split <;> first | rfl | simp_all | (subst_vars; decide)

theorem asciiLower_eq_semi (c : Char) : (asciiLower c = ';') = (c = ';') := by
  rw [asciiLower.eq_def]
  split <;> first | rfl | simp_all | (subst_vars; decide)

theorem asciiLower_eq_plus (c : Char) : (asciiLower c = '+') = (c = '+') := by
  rw [asciiLower.eq_def]
  split <;> first | rfl | simp_all | (subst_vars; decide)

theorem asciiLower_eq_eqsign (c : Char) : (asciiLower c = '=') = (c = '=') := by
  rw [asciiLower.eq_def]
  split <;> first | rfl | simp_all | (subst_vars; decide)

theorem asciiLower_eq_quote (c : Char) : (asciiLower c = '"') = (c = '"') := by
  rw [asciiLower.eq_def]
  split <;> first | rfl | simp_all | (subst_vars; decide)

theorem isTokenChar_not_isOWS {c : Char} (h : isTokenChar c = true) :
    isOWS c = false := by
  by_contra hc
  simp only [isOWS, Bool.or_eq_true, decide_eq_true_eq, Bool.not_eq_false] at hc
  rcases hc with rfl | rfl <;> simp [isTokenChar] at h

theorem isTokenChar_ne_slash {c : Char} (h : isTokenChar c = true) : c ≠ '/' := by
  rintro rfl; simp [isTokenChar] at h

theorem isTokenChar_ne_semi {c : Char} (h : isTokenChar c = true) : c ≠ ';' := by
  rintro rfl; simp [isTokenChar] at h

theorem isTokenChar_ne_eqsign {c : Char} (h : isTokenChar c = true) : c ≠ '=' := by
  rintro rfl; simp [isTokenChar] at h

theorem isTokenChar_ne_quote {c : Char} (h : isTokenChar c = true) : c ≠ '"' := by
  rintro rfl; simp [isTokenChar] at h

/-- Modelled from the spec: the error kinds of the grammar validator (§4.1,
§7): missing `/` separator, empty or invalid type / subtype / key token,
missing `=` in a parameter, unterminated quoted value, invalid value token,
and trailing unparsed content.  (§4.1 resolves an invalid suffix token by
treating the `+` as part of the subtype instead of reporting an error, so no
suffix kind is ever produced.) -/
inductive ParseError where
  | MissingSlash
  | InvalidType
  | InvalidSubtype
  | InvalidKey
  | MissingEquals
  | UnterminatedValue
  | InvalidValue
  | TrailingGarbage
deriving DecidableEq, Repr

/-- A parameter: a key and a value, both original-cased slices. -/
abbrev Param := Str × Str

/-- Modelled from the spec (§4.1): split a subtype segment at its last `+`,
yielding the suffix, when a non-empty suffix token follows it and a non-empty
subtype precedes it; otherwise the whole segment is the subtype and there is
no suffix. -/
def splitSuffix (seg : Str) : Str × Option Str :=
  match seg.reverse.dropWhile (fun c => ¬ c = '+') with
  | '+' :: rsub =>
      if seg.reverse.takeWhile (fun c => ¬ c = '+') = [] ∨ rsub = [] then
        (seg, none)
      else (rsub.reverse, some (seg.reverse.takeWhile (fun c => ¬ c = '+')).reverse)
  | _ => (seg, none)

/-- Modelled from the spec (§4.1): scan one parameter value.  An unquoted
value is a non-empty run of value characters; a value beginning with `"` is a
quoted string running to the matching close quote, recorded as the full quoted
lexeme.  (§8's round-trip property and §4.5's canonicalize contract require
the stored value to re-serialize verbatim, so the quotes are part of the
recorded range.)  Returns the value and the unconsumed rest. -/
def parseValue (r : Str) : Except ParseError (Str × Str) :=
  match r with
  | '"' :: rq =>
      match rq.dropWhile (fun c => ¬ c = '"') with
      | '"' :: r5 => .ok ('"' :: rq.takeWhile (fun c => ¬ c = '"') ++ ['"'], r5)
      | _ => .error .UnterminatedValue
  | _ =>
      if r.takeWhile isValueChar = [] then .error .InvalidValue
      else .ok (r.takeWhile isValueChar, r.drop (r.takeWhile isValueChar).length)

/-- Modelled from the spec (§4.1): the parameter loop of the single-pass
validator.  `r` is the rest of the input just after the last accepted
component (the mime part or a parameter value); parameters are accumulated in
encounter order.  On success it returns the accumulated parameters and the
insignificant tail of the input (the suffix of `r` past the last parameter:
trailing whitespace, optionally preceded by one `;`), from which the
significant length is computed.  Whitespace is skipped around each `;`; a
trailing `;` followed by whitespace only is skipped as insignificant (the
sources' own tests accept `"image/svg+xml;  "`), while a `;` ending the input
is rejected (§8 lists `"a/b;"` as malformed).  The first argument is
structural-recursion fuel; every iteration consumes at least the `;`, so any
fuel of at least `r.length` is enough. -/
def parseParams : Nat → List Param → Str → Except ParseError (List Param × Str)
  | 0, acc, r =>
      if r.dropWhile isOWS = [] then .ok (acc, r) else .error .TrailingGarbage
  | fuel + 1, acc, r =>
      match r.dropWhile isOWS with
      | [] => .ok (acc, r)
      | ';' :: r2 =>
          if r2 = [] then .error .InvalidKey
          else if r2.dropWhile isOWS = [] then .ok (acc, r)
          else if (r2.dropWhile isOWS).takeWhile isTokenChar = [] then
            .error .InvalidKey
          else
            match (r2.dropWhile isOWS).drop
                ((r2.dropWhile isOWS).takeWhile isTokenChar).length with
            | '=' :: r4 =>
                match parseValue r4 with
                | .ok (v, r5) =>
                    parseParams fuel
                      (acc ++ [((r2.dropWhile isOWS).takeWhile isTokenChar, v)]) r5
                | .error e => .error e
            | _ => .error .MissingEquals
      | _ => .error .TrailingGarbage

/-- The output of the grammar validator: the structural slices, the
parameters, and the significant length of the input (§4.1). -/
structure Scanned where
  ty : Str
  subty : Str
  suffix : Option Str
  params : List Param
  len : Nat
deriving DecidableEq, Repr

/-- Modelled from the spec (§4.1): the single left-to-right pass of the
grammar validator: type up to `/`, subtype segment up to the first
non-token character, suffix split at the last `+`, then the parameter loop.
Parameters are returned in encounter order; sorting happens in
`Indices.parse`. -/
def scan (s : Str) : Except ParseError Scanned :=
  match s.drop (s.takeWhile isTokenChar).length with
  | '/' :: r2 =>
      if s.takeWhile isTokenChar = [] then .error .InvalidType
      else if r2.takeWhile isTokenChar = [] then .error .InvalidSubtype
      else
        match parseParams (r2.drop (r2.takeWhile isTokenChar).length).length []
            (r2.drop (r2.takeWhile isTokenChar).length) with
        | .ok (ps, sig) =>
            .ok { ty := s.takeWhile isTokenChar,
                  subty := (splitSuffix (r2.takeWhile isTokenChar)).1,
                  suffix := (splitSuffix (r2.takeWhile isTokenChar)).2,
                  params := ps,
                  len := s.length - sig.length }
        | .error e => .error e
  | _ => .error .MissingSlash

/-! ## The case-insensitive identity model (§4.2, `name.rs`, `value.rs`) -/

/-- Modelled from the spec (§4.2): `Name` equality: ASCII-case-fold both
operands and compare the folded bytes. -/
def nameEqB (a b : Str) : Bool := foldStr a == foldStr b

/-- Lexicographic order on raw character sequences (by code point). -/
def strLeB : Str → Str → Bool
  | [], _ => true
  | _ :: _, [] => false
  | a :: as, b :: bs => a < b || (a = b && strLeB as bs)

/-- Modelled from the spec (§4.2): `Name` ordering compares the ASCII-folded
byte sequences lexicographically. -/
def nameLeB (a b : Str) : Bool := strLeB (foldStr a) (foldStr b)

/-- The parameter ordering used for the sorted-parameter invariant (§3, §4.1):
ascending case-insensitive key order. -/
def ParamLe (p q : Param) : Prop := nameLeB p.1 q.1 = true

instance : DecidableRel ParamLe := fun p q =>
  inferInstanceAs (Decidable (nameLeB p.1 q.1 = true))

/-- Modelled from the spec (§4.1): the stable sort establishing the
parameter-table invariant (ascending case-insensitive key order). -/
def sortParams (ps : List Param) : List Param := ps.insertionSort ParamLe

/-- The model of `Indices::parse` (`parse.rs`, from the spec §4.1): scan the
string, then sort the accumulated parameters by case-insensitive key. -/
def Indices.parse (s : Str) : Except ParseError Scanned :=
  (scan s).map fun r => { r with params := sortParams r.params }

/-! ## `MediaType` (`media_type.rs`) -/

/-- A parsed media type (`MediaType` in `media_type.rs`): structural tokens
plus the ordered parameter list. -/
structure MediaType where
  ty : Str
  subty : Str
  suffix : Option Str
  params : List Param
deriving DecidableEq, Repr

namespace MediaType

/-- The model of `MediaType::parse`: run the validator and take the slices it found
(`media_type.rs` lines 64-82); the parameter list is the validator's sorted
table. -/
def parse (s : Str) : Except ParseError MediaType :=
  (Indices.parse s).map fun r =>
    { ty := r.ty, subty := r.subty, suffix := r.suffix, params := r.params }

end MediaType

/-- The `type/subtype[+suffix]` part of the `Display` rendering
(`media_type.rs` lines 177-182). -/
def renderMime (ty subty : Str) (suffix : Option Str) : Str :=
  ty ++ '/' :: (subty ++ (match suffix with | none => [] | some x => '+' :: x))

/-- The `"; key=value"` part of the `Display` rendering (`media_type.rs`
lines 183-185): exactly one `;` and one space before each parameter. -/
def renderParams (ps : List Param) : Str :=
  ps.flatMap fun p => ';' :: ' ' :: (p.1 ++ '=' :: p.2)

namespace MediaType

/-- The model of `impl Display for MediaType` (`media_type.rs` lines 177-188):
`type/subtype[+suffix][; key=value]*`, parameters in stored (sorted) order,
all with original casing. -/
def display (m : MediaType) : Str :=
  renderMime m.ty m.subty m.suffix ++ renderParams m.params

/-- The model of `MediaType::get_param` (`media_type.rs` lines 124-129): binary search of
the sorted parameter list by case-insensitive key, modelled as the first
case-insensitive match (Rust's `binary_search_by_key` contract returns an
unspecified matching index; §9 leaves the duplicate-key choice unspecified). -/
def get_param (m : MediaType) (key : Str) : Option Str :=
  (m.params.find? fun p => nameEqB p.1 key).map fun p => p.2

/-- Helper for `set_param`: replace the value of the first case-insensitively
matching entry, keeping the stored key, and return the new list and the old
value; `none` when no key matches. -/
def replaceParam (key value : Str) : List Param → Option (List Param × Str)
  | [] => none
  | p :: ps =>
      if nameEqB p.1 key then some ((p.1, value) :: ps, p.2)
      else (replaceParam key value ps).map fun lv => (p :: lv.1, lv.2)

/-- The model of `MediaType::set_param` (`media_type.rs` lines 136-148): if a
case-insensitive key match exists, replace that entry's value in place and
return the old value; otherwise push the pair and re-sort the parameter list
by key, returning `None`. -/
def set_param (m : MediaType) (key value : Str) : MediaType × Option Str :=
  match replaceParam key value m.params with
  | some lv => ({ m with params := lv.1 }, some lv.2)
  | none => ({ m with params := sortParams (m.params ++ [(key, value)]) }, none)

end MediaType

/-- Pairwise case-insensitive equality of parameter sequences: the
`self.params_name().eq(other.params_name())` iterator comparison of
`media_type.rs` lines 172-174 and 195, which re-wraps both keys and values as
`Name`s (§4.2). -/
def paramsEqB : List Param → List Param → Bool
  | [], [] => true
  | p :: ps, q :: qs => nameEqB p.1 q.1 && nameEqB p.2 q.2 && paramsEqB ps qs
  | _, _ => false

/-- Case-insensitive equality of optional suffixes. -/
def optNameEqB : Option Str → Option Str → Bool
  | none, none => true
  | some a, some b => nameEqB a b
  | _, _ => false

/-- The model of `impl PartialEq for MediaType` (`media_type.rs` lines 190-197): compare
type, subtype, suffix and the parameter sequences, each through the
case-insensitive `Name` identity (§4.2). -/
def MediaType.eqCI (a b : MediaType) : Bool :=
  nameEqB a.ty b.ty && nameEqB a.subty b.subty &&
    optNameEqB a.suffix b.suffix && paramsEqB a.params b.params

/-! ## `MediaTypeBuf` (`media_type_buf.rs`) -/

/-- An owned, immutable media type (`MediaTypeBuf`): the buffer truncated to
the significant length, together with the slices the byte-range table resolves
to.  (The Rust value stores `data` plus numeric `Indices`; accessors slice
`data`, so the model stores the slices themselves.) -/
structure MediaTypeBuf where
  data : Str
  ty : Str
  subty : Str
  suffix : Option Str
  params : List Param
deriving DecidableEq, Repr

namespace MediaTypeBuf

/-- The model of `impl FromStr for MediaTypeBuf` (`media_type_buf.rs` lines 128-138):
parse, then keep `s[..len]` as the owned buffer.  `MediaTypeBuf::from_string`
(lines 24-31) truncates the owned string to the same `len` and is the same
function on the model. -/
def from_str (s : Str) : Except ParseError MediaTypeBuf :=
  (Indices.parse s).map fun r =>
    { data := s.take r.len, ty := r.ty, subty := r.subty,
      suffix := r.suffix, params := r.params }

/-- The model of `MediaTypeBuf::essence` (`media_type_buf.rs` lines 55-57):
`self.data.split(';').next().unwrap()`, the prefix of the stored buffer before
the first `;` (the whole buffer when it has no `;`). -/
def essence (b : MediaTypeBuf) : Str :=
  b.data.takeWhile fun c => ¬ c = ';'

/-- The model of `MediaTypeBuf::get_param` (`media_type_buf.rs` lines 69-77), modelled as
for `MediaType::get_param`. -/
def get_param (b : MediaTypeBuf) (key : Str) : Option Str :=
  (b.params.find? fun p => nameEqB p.1 key).map fun p => p.2

/-- The string built by `MediaTypeBuf::canonicalize` (`media_type_buf.rs`
lines 91-107): type, subtype and suffix lowercased, each parameter rendered as
`"; key=value"` with the key lowercased and the value unchanged. -/
def canonicalStr (b : MediaTypeBuf) : Str :=
  renderMime (foldStr b.ty) (foldStr b.subty) (b.suffix.map foldStr) ++
    renderParams (b.params.map fun p => (foldStr p.1, p.2))

/-- The model of `MediaTypeBuf::canonicalize` (`media_type_buf.rs` lines 91-109): rebuild
the canonical string and re-parse it with `from_string`; the Rust code
`unwrap`s the result, modelled as `Option`. -/
def canonicalize (b : MediaTypeBuf) : Option MediaTypeBuf :=
  match from_str (canonicalStr b) with
  | .ok b2 => some b2
  | .error _ => none

/-- The model of `impl PartialEq<MediaType> for MediaTypeBuf` (`media_type_buf.rs` lines
204-211): the identical per-field case-insensitive comparison as
`MediaType`'s equality. -/
def eqMT (b : MediaTypeBuf) (m : MediaType) : Bool :=
  nameEqB b.ty m.ty && nameEqB b.subty m.subty &&
    optNameEqB b.suffix m.suffix && paramsEqB b.params m.params

end MediaTypeBuf

/-! ## Generic scanning lemmas -/

theorem takeWhile_all {p : Char → Bool} :
    ∀ {xs : Str}, (∀ c ∈ xs, p c = true) → xs.takeWhile p = xs
  | [], _ => rfl
  | x :: xs, h => by
      simp only [List.takeWhile_cons, h x (by simp)]
      exact congrArg (x :: ·) (takeWhile_all fun c hc => h c (by simp [hc]))

theorem takeWhile_append_stop {p : Char → Bool} {xs : Str} {y : Char}
    (hxs : ∀ c ∈ xs, p c = true) (hy : p y = false) (ys : Str) :
    (xs ++ y :: ys).takeWhile p = xs := by
  rw [List.takeWhile_append_of_pos hxs, List.takeWhile_cons_of_neg (by simp [hy]),
    List.append_nil]

theorem dropWhile_all {p : Char → Bool} :
    ∀ {xs : Str}, (∀ c ∈ xs, p c = true) → xs.dropWhile p = []
  | [], _ => rfl
  | x :: xs, h => by
      simp only [List.dropWhile_cons, h x (by simp)]
      exact dropWhile_all fun c hc => h c (by simp [hc])

theorem dropWhile_append_stop {p : Char → Bool} {xs : Str} {y : Char}
    (hxs : ∀ c ∈ xs, p c = true) (hy : p y = false) (ys : Str) :
    (xs ++ y :: ys).dropWhile p = y :: ys := by
  rw [List.dropWhile_append_of_pos hxs, List.dropWhile_cons_of_neg (by simp [hy])]

theorem dropWhile_cons_neg_self {p : Char → Bool} {y : Char} (hy : p y = false)
    (ys : Str) : (y :: ys).dropWhile p = y :: ys :=
  List.dropWhile_cons_of_neg (by simp [hy])

/-! ## Properties of the folded lexicographic order -/

theorem strLeB_refl : ∀ a : Str, strLeB a a = true
  | [] => rfl
  | a :: as => by simp [strLeB, strLeB_refl as]

theorem strLeB_total : ∀ a b : Str, strLeB a b = true ∨ strLeB b a = true
  | [], _ => .inl rfl
  | _ :: _, [] => .inr rfl
  | a :: as, b :: bs => by
      rcases lt_trichotomy a b with h | rfl | h
      · exact .inl (by simp [strLeB, h])
      · rcases strLeB_total as bs with h' | h'
        · exact .inl (by simp [strLeB, h'])
        · exact .inr (by simp [strLeB, h'])
      · exact .inr (by simp [strLeB, h])

theorem strLeB_trans : ∀ {a b c : Str}, strLeB a b = true → strLeB b c = true →
    strLeB a c = true
  | [], _, _, _, _ => rfl
  | a :: as, b :: bs, c :: cs, hab, hbc => by
      simp only [strLeB, Bool.or_eq_true, Bool.and_eq_true, decide_eq_true_eq] at *
      rcases hab with hab | ⟨rfl, hab⟩
      · rcases hbc with hbc | ⟨rfl, _⟩
        · exact .inl (lt_trans hab hbc)
        · exact .inl hab
      · rcases hbc with hbc | ⟨rfl, hbc⟩
        · exact .inl hbc
        · exact .inr ⟨rfl, strLeB_trans hab hbc⟩

theorem strLeB_antisymm : ∀ {a b : Str}, strLeB a b = true → strLeB b a = true →
    a = b
  | [], [], _, _ => rfl
  | a :: as, b :: bs, hab, hba => by
      simp only [strLeB, Bool.or_eq_true, Bool.and_eq_true, decide_eq_true_eq] at hab hba
      rcases hab with h1 | ⟨rfl, h2⟩
      · rcases hba with h3 | ⟨h4, _⟩
        · exact absurd (lt_trans h1 h3) (lt_irrefl a)
        · exact absurd (h4 ▸ h1) (lt_irrefl a)
      · rcases hba with h3 | ⟨_, h4⟩
        · exact absurd h3 (lt_irrefl a)
        · exact congrArg (a :: ·) (strLeB_antisymm h2 h4)

instance : IsTotal Param ParamLe :=
  ⟨fun p q => strLeB_total (foldStr p.1) (foldStr q.1)⟩

instance : IsTrans Param ParamLe :=
  ⟨fun _ _ _ h h' => strLeB_trans h h'⟩

theorem ParamLe_key_eq {p q : Param} (h : ParamLe p q) (h' : ParamLe q p) :
    foldStr p.1 = foldStr q.1 :=
  strLeB_antisymm h h'

theorem sortParams_perm (ps : List Param) : List.Perm (sortParams ps) ps :=
  List.perm_insertionSort ParamLe ps

theorem sortParams_sorted (ps : List Param) :
    (sortParams ps).Pairwise ParamLe :=
  List.sorted_insertionSort ParamLe ps

theorem sortParams_of_sorted {ps : List Param} (h : ps.Pairwise ParamLe) :
    sortParams ps = ps :=
  List.Sorted.insertionSort_eq h

/-- Two parameter lists that are permutations of one another, both sorted by
case-insensitive key, with pairwise-distinct folded keys, are equal. -/
theorem sorted_perm_eq {l₁ l₂ : List Param} (hp : List.Perm l₁ l₂)
    (hs₁ : l₁.Pairwise ParamLe) (hs₂ : l₂.Pairwise ParamLe)
    (hd : l₁.Pairwise fun p q => foldStr p.1 ≠ foldStr q.1) : l₁ = l₂ := by
  have hd₂ : l₂.Pairwise fun p q => foldStr p.1 ≠ foldStr q.1 :=
    (hp.pairwise_iff fun h => h.symm).mp hd
  have hanti : @IsAntisymm Param fun p q =>
      ParamLe p q ∧ (foldStr q.1 ≠ foldStr p.1 ∨ p = q) := by
    constructor
    rintro p q ⟨hle, hpq⟩ ⟨hle', _⟩
    rcases hpq with hne | rfl
    · exact absurd (ParamLe_key_eq hle' hle) hne
    · rfl
  have hsort1 : l₁.Pairwise fun p q => ParamLe p q ∧
      (foldStr q.1 ≠ foldStr p.1 ∨ p = q) :=
    (hs₁.and hd).imp fun h => ⟨h.1, .inl h.2.symm⟩
  have hsort2 : l₂.Pairwise fun p q => ParamLe p q ∧
      (foldStr q.1 ≠ foldStr p.1 ∨ p = q) :=
    (hs₂.and hd₂).imp fun h => ⟨h.1, .inl h.2.symm⟩
  exact @List.eq_of_perm_of_sorted Param _ hanti _ _ hp hsort1 hsort2


/-! ## Well-formedness invariants established by the validator -/

/-- A valid structural token (§3): non-empty, all characters in the token
set. -/
def WfName (n : Str) : Prop := n ≠ [] ∧ ∀ c ∈ n, isTokenChar c = true

/-- A valid parameter value (§3, §4.1): a non-empty unquoted token, or a
quoted lexeme whose content has no quote character. -/
def WfValue (v : Str) : Prop :=
  (v ≠ [] ∧ ∀ c ∈ v, isValueChar c = true) ∨
    ∃ c, v = '"' :: c ++ ['"'] ∧ ∀ ch ∈ c, ¬ ch = '"'

/-- A well-formed parameter. -/
def WfParam (p : Param) : Prop := WfName p.1 ∧ WfValue p.2

/-- The subtype segment that a subtype and optional suffix came from:
`subty` or `subty ++ "+" ++ suffix`.  This is also exactly the
`subtype[+suffix]` part of the `Display` rendering. -/
def mimeSeg (subty : Str) (sfx : Option Str) : Str :=
  subty ++ (match sfx with | none => [] | some x => '+' :: x)

theorem drop_takeWhile_length (p : Char → Bool) :
    ∀ l : Str, l.drop (l.takeWhile p).length = l.dropWhile p
  | [] => rfl
  | x :: xs => by
      cases h : p x <;>
        simp [List.takeWhile_cons, List.dropWhile_cons, h, drop_takeWhile_length p xs]

/-! ## `splitSuffix` lemmas -/

theorem splitSuffix_recombine (seg : Str) :
    mimeSeg (splitSuffix seg).1 (splitSuffix seg).2 = seg := by
  have hsp : seg.reverse.takeWhile (fun c => ¬ c = '+') ++
      seg.reverse.dropWhile (fun c => ¬ c = '+') = seg.reverse :=
    List.takeWhile_append_dropWhile _ _
  rw [splitSuffix.eq_def]
  split
  · rename_i rsub heq
    split
    · simp [mimeSeg]
    · rw [heq] at hsp
      have hseg : seg = (seg.reverse).reverse := (List.reverse_reverse seg).symm
      conv_rhs => rw [hseg, ← hsp]
      simp [mimeSeg]
  · simp [mimeSeg]

theorem splitSuffix_of_parts {sub sfx : Str} (hsub : sub ≠ [])
    (hsfx : sfx ≠ []) (hplus : ∀ c ∈ sfx, ¬ c = '+') :
    splitSuffix (sub ++ '+' :: sfx) = (sub, some sfx) := by
  have hrev : (sub ++ '+' :: sfx).reverse = sfx.reverse ++ '+' :: sub.reverse := by
    simp
  have hplus' : ∀ c ∈ sfx.reverse, (fun c => decide ¬ c = '+') c = true := by
    intro c hc
    simp only [decide_eq_true_eq]
    exact hplus c (List.mem_reverse.mp hc)
  have htw : (sub ++ '+' :: sfx).reverse.takeWhile (fun c => ¬ c = '+') =
      sfx.reverse := by
    rw [hrev]
    exact takeWhile_append_stop hplus' (by simp) _
  have hdw : (sub ++ '+' :: sfx).reverse.dropWhile (fun c => ¬ c = '+') =
      '+' :: sub.reverse := by
    rw [hrev]
    exact dropWhile_append_stop hplus' (by simp) _
  rw [splitSuffix.eq_def]
  split
  · rename_i rsub heq
    rw [hdw] at heq
    injection heq with _ h2
    subst h2
    rw [htw, if_neg]
    · simp
    · simp [hsub, hsfx]
  · rename_i hbad
    exact (hbad sub.reverse hdw).elim

/-! ## `parseValue` lemmas -/

theorem parseValue_split {r v r5 : Str} (h : parseValue r = .ok (v, r5)) :
    r = v ++ r5 := by
  rw [parseValue.eq_def] at h
  split at h
  · rename_i rq
    split at h
    · rename_i r5' heq
      injection h with h
      injection h with h1 h2
      subst h1; subst h2
      have hsp := List.takeWhile_append_dropWhile (fun c => ¬ c = '"') rq
      rw [heq] at hsp
      simp only [List.cons_append, List.append_assoc, List.singleton_append,
        List.nil_append]
      rw [hsp]
    · exact Except.noConfusion h
  · split at h
    · exact Except.noConfusion h
    · injection h with h
      injection h with h1 h2
      subst h1; subst h2
      rw [drop_takeWhile_length]
      exact (List.takeWhile_append_dropWhile _ _).symm

theorem parseValue_wf {r v r5 : Str} (h : parseValue r = .ok (v, r5)) :
    WfValue v := by
  rw [parseValue.eq_def] at h
  split at h
  · rename_i rq
    split at h
    · injection h with h
      injection h with h1 _
      subst h1
      refine .inr ⟨rq.takeWhile (fun c => ¬ c = '"'), by simp, ?_⟩
      intro ch hch
      simpa using List.mem_takeWhile_imp hch
    · exact Except.noConfusion h
  · split at h
    · exact Except.noConfusion h
    · rename_i hne
      injection h with h
      injection h with h1 _
      subst h1
      exact .inl ⟨hne, fun c hc => List.mem_takeWhile_imp hc⟩

/-- Evaluating `parseValue` on a rendered well-formed value followed by the
rest of a parameter rendering (which is empty or starts with `;`). -/
theorem parseValue_render {v rest : Str} (hv : WfValue v)
    (hrest : rest = [] ∨ ∃ t, rest = ';' :: t) :
    parseValue (v ++ rest) = .ok (v, rest) := by
  rcases hv with ⟨hne, hall⟩ | ⟨c, rfl, hc⟩
  · obtain ⟨x, xs, rfl⟩ := List.exists_cons_of_ne_nil hne
    have hx : isValueChar x = true := hall x (by simp)
    have hxq : ¬ x = '"' := isTokenChar_ne_quote hx
    have htw : ((x :: xs) ++ rest).takeWhile isValueChar = x :: xs := by
      rcases hrest with rfl | ⟨t, rfl⟩
      · rw [List.append_nil]
        exact takeWhile_all hall
      · exact takeWhile_append_stop hall (by simp [isValueChar, isTokenChar]) t
    rw [parseValue.eq_def]
    split
    · rename_i rq heq
      rw [List.cons_append] at heq
      injection heq with h1 _
      exact absurd h1 hxq
    · rw [if_neg (by rw [htw]; simp), htw]
      rw [List.drop_left' (by rfl)]
  · have hq : ('"' :: c ++ ['"']) ++ rest = '"' :: (c ++ '"' :: rest) := by
      simp
    have hc' : ∀ ch ∈ c, (fun ch => decide ¬ ch = '"') ch = true := by
      intro ch hch
      simp only [decide_eq_true_eq]
      exact hc ch hch
    rw [hq, parseValue.eq_def]
    split
    · rename_i rq heq
      injection heq with _ h2
      subst h2
      rw [dropWhile_append_stop hc' (by simp) rest]
      rw [takeWhile_append_stop hc' (by simp) rest]
      simp
    · rename_i hbad
      exact (hbad (c ++ '"' :: rest) rfl).elim

/-! ## `parseParams` lemmas -/

theorem parseParams_nil : ∀ (fuel : Nat) (acc : List Param),
    parseParams fuel acc [] = .ok (acc, [])
  | 0, acc => by simp [parseParams]
  | fuel + 1, acc => by simp [parseParams]

theorem renderParams_cons (p : Param) (ps : List Param) :
    renderParams (p :: ps) =
      ';' :: ' ' :: (p.1 ++ '=' :: p.2) ++ renderParams ps := by
  simp [renderParams]

theorem renderParams_shape (ps : List Param) :
    renderParams ps = [] ∨ ∃ t, renderParams ps = ';' :: t := by
  cases ps with
  | nil => exact .inl rfl
  | cons p ps =>
      exact .inr ⟨' ' :: (p.1 ++ '=' :: p.2) ++ renderParams ps,
        by simp [renderParams_cons]⟩

theorem parseParams_render : ∀ (ps : List Param), (∀ p ∈ ps, WfParam p) →
    ∀ (fuel : Nat) (acc : List Param), (renderParams ps).length ≤ fuel →
    parseParams fuel acc (renderParams ps) = .ok (acc ++ ps, [])
  | [], _, fuel, acc, _ => by
      simpa [renderParams] using parseParams_nil fuel acc
  | (k, v) :: ps, hw, fuel, acc, hf => by
      obtain ⟨⟨hkne, hktok⟩, hv⟩ : WfParam (k, v) := hw _ (by simp)
      obtain ⟨kh, kt, rfl⟩ := List.exists_cons_of_ne_nil hkne
      rw [renderParams_cons] at hf ⊢
      obtain ⟨f, rfl⟩ : ∃ f, fuel = f + 1 := by
        cases fuel with
        | zero => simp at hf
        | succ f => exact ⟨f, rfl⟩
      have hfr : (renderParams ps).length ≤ f := by
        simp only [List.length_append, List.length_cons] at hf
        omega
      have hL : ((kh :: kt) ++ '=' :: v) ++ renderParams ps =
          (kh :: kt) ++ '=' :: (v ++ renderParams ps) := by
        simp
      have hkh : isTokenChar kh = true := hktok kh (by simp)
      simp only [List.cons_append, List.append_assoc, List.singleton_append]
      simp only [parseParams]
      rw [List.dropWhile_cons_of_neg (by decide)]
      split
      · rename_i heq
        exact List.noConfusion heq
      · rename_i r2' heq
        injection heq with _ h2
        subst h2
        rw [if_neg (by simp)]
        rw [List.dropWhile_cons_of_pos (by decide),
          List.dropWhile_cons_of_neg (by simp [isTokenChar_not_isOWS hkh])]
        rw [if_neg (by simp)]
        have htw : (kh :: (kt ++ '=' :: (v ++ renderParams ps))).takeWhile
            isTokenChar = kh :: kt := by
          rw [show kh :: (kt ++ '=' :: (v ++ renderParams ps)) =
            (kh :: kt) ++ '=' :: (v ++ renderParams ps) by simp]
          exact takeWhile_append_stop hktok (by decide) _
        rw [if_neg (by rw [htw]; simp), htw]
        rw [show kh :: (kt ++ '=' :: (v ++ renderParams ps)) =
          (kh :: kt) ++ '=' :: (v ++ renderParams ps) by simp]
        rw [List.drop_left]
        split
        · rename_i r4 heq
          injection heq with _ h2
          subst h2
          rw [parseValue_render hv (renderParams_shape ps)]
          have hrec := parseParams_render ps
            (fun p hp => hw p (by simp [hp])) f
            (acc ++ [(kh :: kt, v)]) hfr
          show parseParams f (acc ++ [(kh :: kt, v)]) (renderParams ps) =
            Except.ok (acc ++ (kh :: kt, v) :: ps, [])
          rw [hrec]
          simp
        · rename_i hbad
          exact (hbad (v ++ renderParams ps) rfl).elim
      · rename_i hbad
        exact (hbad (' ' :: (kh :: (kt ++ '=' :: (v ++ renderParams ps)))) rfl).elim

/-- Inversion for the parameter loop: a successful run appends well-formed
parameters to the accumulator, and the input splits as the consumed middle
followed by the returned insignificant tail, where the middle is empty or
starts with optional whitespace and a `;`. -/
theorem parseParams_inv : ∀ (fuel : Nat) (acc : List Param) (r : Str)
    (ps : List Param) (sig : Str),
    parseParams fuel acc r = .ok (ps, sig) →
    ∃ pre, ps = acc ++ pre ∧ (∀ p ∈ pre, WfParam p) ∧
      ∃ mid, r = mid ++ sig ∧
        (mid = [] ∨ ∃ ws rest, mid = ws ++ ';' :: rest ∧ ∀ c ∈ ws, isOWS c = true)
  | 0, acc, r, ps, sig, h => by
      rw [parseParams] at h
      split at h
      · injection h with h
        injection h with h1 h2
        subst h1; subst h2
        exact ⟨[], by simp, by simp, [], by simp, .inl rfl⟩
      · exact Except.noConfusion h
  | fuel + 1, acc, r, ps, sig, h => by
      rw [parseParams] at h
      split at h
      · rename_i heq
        injection h with h
        injection h with h1 h2
        subst h1; subst h2
        exact ⟨[], by simp, by simp, [], by simp, .inl rfl⟩
      · rename_i r2 heq
        split at h
        · exact Except.noConfusion h
        · rename_i hr2ne
          split at h
          · injection h with h
            injection h with h1 h2
            subst h1; subst h2
            exact ⟨[], by simp, by simp, [], by simp, .inl rfl⟩
          · rename_i hr3ne
            split at h
            · exact Except.noConfusion h
            · rename_i hkne
              split at h
              · rename_i r4 heq2
                split at h
                · rename_i v r5 heqv
                  obtain ⟨pre', hps, hwf, mid', hmid, _⟩ :=
                    parseParams_inv fuel _ r5 ps sig h
                  have hkwf : WfName ((r2.dropWhile isOWS).takeWhile isTokenChar) :=
                    ⟨hkne, fun c hc => List.mem_takeWhile_imp hc⟩
                  refine ⟨((r2.dropWhile isOWS).takeWhile isTokenChar, v) :: pre',
                    by simp [hps], ?_, ?_⟩
                  · intro p hp
                    rcases List.mem_cons.mp hp with rfl | hp
                    · exact ⟨hkwf, parseValue_wf heqv⟩
                    · exact hwf p hp
                  · have e1 : r.takeWhile isOWS ++ ';' :: r2 = r := by
                      conv_rhs => rw [← List.takeWhile_append_dropWhile isOWS r]
                      rw [heq]
                    have e2b : (r2.dropWhile isOWS).takeWhile isTokenChar ++
                        '=' :: r4 = r2.dropWhile isOWS := by
                      conv_rhs => rw [← List.takeWhile_append_dropWhile isTokenChar
                        (r2.dropWhile isOWS)]
                      rw [← drop_takeWhile_length isTokenChar (r2.dropWhile isOWS),
                        heq2]
                    have e2a : r2.takeWhile isOWS ++ r2.dropWhile isOWS = r2 :=
                      List.takeWhile_append_dropWhile _ _
                    have e3 : r4 = v ++ r5 := parseValue_split heqv
                    refine ⟨r.takeWhile isOWS ++ ';' ::
                      (r2.takeWhile isOWS ++
                        ((r2.dropWhile isOWS).takeWhile isTokenChar ++
                          '=' :: (v ++ mid'))), ?_, ?_⟩
                    · have hr : r = r.takeWhile isOWS ++ ';' ::
                          (r2.takeWhile isOWS ++
                            ((r2.dropWhile isOWS).takeWhile isTokenChar ++
                              '=' :: (v ++ (mid' ++ sig)))) := by
                        rw [← hmid, ← e3, e2b, e2a, e1]
                      conv_lhs => rw [hr]
                      simp
                    · exact .inr ⟨r.takeWhile isOWS, _, rfl,
                        fun c hc => List.mem_takeWhile_imp hc⟩
                · exact Except.noConfusion h
              · exact Except.noConfusion h
      · exact Except.noConfusion h

/-! ## `scan` lemmas -/

theorem renderMime_eq (ty subty : Str) (sfx : Option Str) :
    renderMime ty subty sfx = ty ++ '/' :: mimeSeg subty sfx := rfl

/-- A decomposition of any string along a `takeWhile`/`drop` boundary. -/
theorem takeWhile_drop_decomp (p : Char → Bool) (s : Str) :
    s = s.takeWhile p ++ s.drop (s.takeWhile p).length := by
  rw [drop_takeWhile_length]
  exact (List.takeWhile_append_dropWhile p s).symm

/-- Scanning a rendered media type: the validator accepts the `Display`
rendering of well-formed components and recovers them exactly, with the whole
string significant. -/
theorem scan_render {ty subty : Str} {sfx : Option Str} {ps : List Param}
    (hty : WfName ty)
    (hseg_ne : mimeSeg subty sfx ≠ [])
    (hseg_tok : ∀ c ∈ mimeSeg subty sfx, isTokenChar c = true)
    (hsplit : splitSuffix (mimeSeg subty sfx) = (subty, sfx))
    (hps : ∀ p ∈ ps, WfParam p) :
    scan (renderMime ty subty sfx ++ renderParams ps) =
      .ok { ty := ty, subty := subty, suffix := sfx, params := ps,
            len := (renderMime ty subty sfx ++ renderParams ps).length } := by
  have hs : renderMime ty subty sfx ++ renderParams ps =
      ty ++ '/' :: (mimeSeg subty sfx ++ renderParams ps) := by
    rw [renderMime_eq]
    simp
  have htw : (ty ++ '/' :: (mimeSeg subty sfx ++ renderParams ps)).takeWhile
      isTokenChar = ty :=
    takeWhile_append_stop hty.2 (by decide) _
  have htw2 : (mimeSeg subty sfx ++ renderParams ps).takeWhile isTokenChar =
      mimeSeg subty sfx := by
    rcases renderParams_shape ps with hrp | ⟨t, hrp⟩
    · rw [hrp, List.append_nil]
      exact takeWhile_all hseg_tok
    · rw [hrp]
      exact takeWhile_append_stop hseg_tok (by decide) _
  rw [scan, hs, htw]
  rw [List.drop_left' (by rfl)]
  split
  · rename_i r2 heq
    injection heq with _ h2
    subst h2
    rw [if_neg hty.1, htw2, if_neg hseg_ne]
    rw [List.drop_left]
    rw [parseParams_render ps hps (renderParams ps).length [] (Nat.le_refl _)]
    rw [hsplit]
    simp
  · rename_i hbad
    exact (hbad (mimeSeg subty sfx ++ renderParams ps) rfl).elim

/-- Inversion for the validator: the components of a successful scan are
well-formed, the suffix split is reproducible, and the significant prefix of
the input is the mime part followed by the consumed parameter middle. -/
theorem scan_inv {s : Str} {r : Scanned} (h : scan s = .ok r) :
    WfName r.ty ∧ mimeSeg r.subty r.suffix ≠ [] ∧
    (∀ c ∈ mimeSeg r.subty r.suffix, isTokenChar c = true) ∧
    splitSuffix (mimeSeg r.subty r.suffix) = (r.subty, r.suffix) ∧
    (∀ p ∈ r.params, WfParam p) ∧
    ∃ mid, s.take r.len = r.ty ++ '/' :: (mimeSeg r.subty r.suffix ++ mid) ∧
      (mid = [] ∨ ∃ ws rest, mid = ws ++ ';' :: rest ∧ ∀ c ∈ ws, isOWS c = true) := by
  obtain ⟨ty0, subty0, sfx0, ps0, len0⟩ := r
  rw [scan] at h
  generalize hA : s.takeWhile isTokenChar = A at h
  split at h
  · rename_i r2 heq
    split at h
    · exact Except.noConfusion h
    · rename_i htyne
      generalize hB : r2.takeWhile isTokenChar = B at h
      split at h
      · exact Except.noConfusion h
      · rename_i hsegne
        generalize hC : r2.drop B.length = C at h
        split at h
        · rename_i ps sig heqp
          injection h with h
          injection h with e1 e2 e3 e4 e5
          subst e1; subst e2; subst e3; subst e4; subst e5
          obtain ⟨pre, hpre, hwf, mid, hmid, hshape⟩ :=
            parseParams_inv _ _ _ _ _ heqp
          have hrec : mimeSeg (splitSuffix B).1 (splitSuffix B).2 = B :=
            splitSuffix_recombine B
          have h1 := takeWhile_drop_decomp isTokenChar s
          rw [hA] at h1
          rw [heq] at h1
          have h2 := takeWhile_drop_decomp isTokenChar r2
          rw [hB] at h2
          rw [hC] at h2
          have key : s = (A ++ '/' :: (B ++ mid)) ++ sig := by
            rw [h1, h2, hmid]
            simp
          have hlen : s.length - sig.length = (A ++ '/' :: (B ++ mid)).length := by
            rw [key]
            simp
            omega
          refine ⟨⟨htyne, fun c hc => List.mem_takeWhile_imp (hA ▸ hc)⟩, ?_, ?_, ?_, ?_,
            mid, ?_, hshape⟩
          · rw [hrec]
            exact hsegne
          · rw [hrec]
            exact fun c hc => List.mem_takeWhile_imp (hB ▸ hc)
          · rw [hrec]
          · intro p hp
            exact hwf p (by simpa [hpre] using hp)
          · rw [hrec, hlen, key]
            exact List.take_left _ _
        · exact Except.noConfusion h
  · exact Except.noConfusion h

/-! ## Case-folding commutes with the validator (§4.2) -/

/-- Folding a parameter: both the key and the value. -/
def foldParam (p : Param) : Param := (foldStr p.1, foldStr p.2)

theorem foldStr_append (a b : Str) : foldStr (a ++ b) = foldStr a ++ foldStr b :=
  List.map_append asciiLower a b

theorem foldStr_takeWhile {p : Char → Bool} (hp : ∀ c, p (asciiLower c) = p c)
    (l : Str) : (foldStr l).takeWhile p = foldStr (l.takeWhile p) := by
  rw [foldStr, List.takeWhile_map, show p ∘ asciiLower = p from funext hp]
  rfl

theorem foldStr_dropWhile {p : Char → Bool} (hp : ∀ c, p (asciiLower c) = p c)
    (l : Str) : (foldStr l).dropWhile p = foldStr (l.dropWhile p) := by
  rw [foldStr, List.dropWhile_map, show p ∘ asciiLower = p from funext hp]
  rfl

theorem foldStr_drop (l : Str) (n : Nat) :
    (foldStr l).drop n = foldStr (l.drop n) :=
  (List.map_drop asciiLower l n).symm

theorem foldStr_length (l : Str) : (foldStr l).length = l.length :=
  List.length_map l asciiLower

theorem foldStr_eq_nil_iff {l : Str} : foldStr l = [] ↔ l = [] := by
  cases l <;> simp [foldStr]

theorem asciiLower_isValueChar (c : Char) :
    isValueChar (asciiLower c) = isValueChar c := asciiLower_isTokenChar c

/-! Branch-evaluation lemmas for the parameter loop. -/

theorem parseParams_eval_end {r : Str} (hdw0 : r.dropWhile isOWS = [])
    (fuel : Nat) (acc : List Param) :
    parseParams (fuel + 1) acc r = .ok (acc, r) := by
  rw [parseParams, hdw0]

theorem parseParams_eval_end_zero {r : Str} (hdw0 : r.dropWhile isOWS = [])
    (acc : List Param) : parseParams 0 acc r = .ok (acc, r) := by
  rw [parseParams, if_pos hdw0]

theorem parseParams_eval_other {r r2 : Str} {c : Char} (hc : ¬ c = ';')
    (hdw0 : r.dropWhile isOWS = c :: r2) (fuel : Nat) (acc : List Param) :
    parseParams (fuel + 1) acc r = .error .TrailingGarbage := by
  rw [parseParams, hdw0]
  split
  · rename_i heq
    exact List.noConfusion heq
  · rename_i r2' heq
    injection heq with h1 _
    exact absurd h1 hc
  · rfl

theorem parseParams_eval_other_zero {r r2 : Str} {c : Char}
    (hdw0 : r.dropWhile isOWS = c :: r2) (acc : List Param) :
    parseParams 0 acc r = .error .TrailingGarbage := by
  rw [parseParams, if_neg (by rw [hdw0]; simp)]

theorem parseParams_eval_semi {r r2 : Str} (hdw0 : r.dropWhile isOWS = ';' :: r2)
    (fuel : Nat) (acc : List Param) :
    parseParams (fuel + 1) acc r =
      (if r2 = [] then .error .InvalidKey
       else if r2.dropWhile isOWS = [] then .ok (acc, r)
       else if (r2.dropWhile isOWS).takeWhile isTokenChar = [] then
         .error .InvalidKey
       else
         match (r2.dropWhile isOWS).drop
             ((r2.dropWhile isOWS).takeWhile isTokenChar).length with
         | '=' :: r4 =>
             match parseValue r4 with
             | .ok (v, r5) =>
                 parseParams fuel
                   (acc ++ [((r2.dropWhile isOWS).takeWhile isTokenChar, v)]) r5
             | .error e => .error e
         | _ => .error .MissingEquals) := by
  rw [parseParams, hdw0]
  split
  · rename_i heq
    exact List.noConfusion heq
  · rename_i r2' heq
    injection heq with _ h2
    subst h2
    rfl
  · rename_i hbad
    exact (hbad r2 rfl).elim

/-- Case folding commutes with `parseValue`. -/
theorem parseValue_fold (r : Str) :
    parseValue (foldStr r) =
      (parseValue r).map fun vr => (foldStr vr.1, foldStr vr.2) := by
  cases r with
  | nil => rfl
  | cons c t =>
      by_cases hc : c = '"'
      · subst hc
        have hfold : foldStr ('"' :: t) = '"' :: foldStr t := rfl
        have hq : ∀ ch, (fun ch => decide ¬ ch = '"') (asciiLower ch) =
            (fun ch => decide ¬ ch = '"') ch := fun ch => by
          simp [asciiLower_eq_quote]
        have hdwq : (foldStr t).dropWhile (fun ch => ¬ ch = '"') =
            foldStr (t.dropWhile (fun ch => ¬ ch = '"')) := foldStr_dropWhile hq t
        have htwq : (foldStr t).takeWhile (fun ch => ¬ ch = '"') =
            foldStr (t.takeWhile (fun ch => ¬ ch = '"')) := foldStr_takeWhile hq t
        rw [hfold]
        cases hdt : t.dropWhile (fun ch => ¬ ch = '"') with
        | nil =>
            have hL : parseValue ('"' :: foldStr t) = .error .UnterminatedValue := by
              rw [parseValue.eq_def]
              split
              · rename_i rq heq
                injection heq with _ h2
                subst h2
                rw [hdwq, hdt]
                rfl
              · rename_i hbad
                exact (hbad (foldStr t) rfl).elim
            have hR : parseValue ('"' :: t) = .error .UnterminatedValue := by
              rw [parseValue.eq_def]
              split
              · rename_i rq heq
                injection heq with _ h2
                subst h2
                rw [hdt]
              · rename_i hbad
                exact (hbad t rfl).elim
            rw [hL, hR]
            rfl
        | cons d r5 =>
            by_cases hd : d = '"'
            · subst hd
              have hL : parseValue ('"' :: foldStr t) =
                  .ok ('"' :: (foldStr t).takeWhile (fun ch => ¬ ch = '"') ++ ['"'],
                    foldStr r5) := by
                rw [parseValue.eq_def]
                split
                · rename_i rq heq
                  injection heq with _ h2
                  subst h2
                  rw [hdwq, hdt]
                  rfl
                · rename_i hbad
                  exact (hbad (foldStr t) rfl).elim
              have hR : parseValue ('"' :: t) =
                  .ok ('"' :: t.takeWhile (fun ch => ¬ ch = '"') ++ ['"'], r5) := by
                rw [parseValue.eq_def]
                split
                · rename_i rq heq
                  injection heq with _ h2
                  subst h2
                  rw [hdt]
                  rfl
                · rename_i hbad
                  exact (hbad t rfl).elim
              rw [hL, hR, htwq]
              show Except.ok _ = Except.ok _
              refine congrArg _ (Prod.ext ?_ rfl)
              show '"' :: foldStr (t.takeWhile fun ch => ¬ ch = '"') ++ ['"'] =
                foldStr ('"' :: t.takeWhile (fun ch => ¬ ch = '"') ++ ['"'])
              rw [show ('"' : Char) :: t.takeWhile (fun ch => ¬ ch = '"') ++ ['"'] =
                '"' :: (t.takeWhile (fun ch => ¬ ch = '"') ++ ['"']) from rfl]
              rw [show foldStr ('"' :: (t.takeWhile (fun ch => ¬ ch = '"') ++ ['"'])) =
                '"' :: foldStr (t.takeWhile (fun ch => ¬ ch = '"') ++ ['"']) from rfl]
              rw [foldStr_append]
              rfl
            · have hL : parseValue ('"' :: foldStr t) = .error .UnterminatedValue := by
                rw [parseValue.eq_def]
                split
                · rename_i rq heq
                  injection heq with _ h2
                  subst h2
                  rw [hdwq, hdt]
                  show (match asciiLower d :: foldStr r5 with
                    | '"' :: r5 => Except.ok
                        ('"' :: (foldStr t).takeWhile (fun c => ¬ c = '"') ++ ['"'], r5)
                    | _ => Except.error ParseError.UnterminatedValue) = _
                  split
                  · rename_i heq2
                    injection heq2 with h1 _
                    exact absurd ((asciiLower_eq_quote d) ▸ h1) hd
                  · rfl
                · rename_i hbad
                  exact (hbad (foldStr t) rfl).elim
              have hR : parseValue ('"' :: t) = .error .UnterminatedValue := by
                rw [parseValue.eq_def]
                split
                · rename_i rq heq
                  injection heq with _ h2
                  subst h2
                  rw [hdt]
                  split
                  · rename_i heq2
                    injection heq2 with h1 _
                    exact absurd h1 hd
                  · rfl
                · rename_i hbad
                  exact (hbad t rfl).elim
              rw [hL, hR]
              rfl
      · have hcf : ¬ asciiLower c = '"' := by
          rw [asciiLower_eq_quote]
          exact hc
        have hfold : foldStr (c :: t) = asciiLower c :: foldStr t := rfl
        have htwv : (foldStr (c :: t)).takeWhile isValueChar =
            foldStr ((c :: t).takeWhile isValueChar) :=
          foldStr_takeWhile asciiLower_isValueChar _
        have hL : parseValue (foldStr (c :: t)) =
            (if (foldStr (c :: t)).takeWhile isValueChar = [] then
              .error .InvalidValue
             else .ok ((foldStr (c :: t)).takeWhile isValueChar,
               (foldStr (c :: t)).drop
                 ((foldStr (c :: t)).takeWhile isValueChar).length)) := by
          rw [parseValue.eq_def]
          split
          · rename_i rq heq
            rw [hfold] at heq
            injection heq with h1 _
            exact absurd h1 hcf
          · rfl
        have hR : parseValue (c :: t) =
            (if (c :: t).takeWhile isValueChar = [] then .error .InvalidValue
             else .ok ((c :: t).takeWhile isValueChar,
               (c :: t).drop ((c :: t).takeWhile isValueChar).length)) := by
          rw [parseValue.eq_def]
          split
          · rename_i rq heq
            injection heq with h1 _
            exact absurd h1 hc
          · rfl
        rw [hL, hR]
        by_cases hnil : (c :: t).takeWhile isValueChar = []
        · rw [if_pos hnil, if_pos (by rw [htwv, hnil]; rfl)]
          rfl
        · rw [if_neg hnil, if_neg (by rw [htwv]; simpa [foldStr_eq_nil_iff] using hnil)]
          rw [htwv, foldStr_length, foldStr_drop]
          rfl

/-- Case folding commutes with the parameter loop. -/
theorem parseParams_fold : ∀ (fuel : Nat) (acc : List Param) (r : Str),
    parseParams fuel (acc.map foldParam) (foldStr r) =
      (parseParams fuel acc r).map fun x => (x.1.map foldParam, foldStr x.2)
  | 0, acc, r => by
      rw [parseParams, parseParams]
      have hdw : (foldStr r).dropWhile isOWS = foldStr (r.dropWhile isOWS) :=
        foldStr_dropWhile asciiLower_isOWS r
      by_cases h0 : r.dropWhile isOWS = []
      · rw [if_pos (by rw [hdw, h0]; rfl), if_pos h0]
        rfl
      · rw [if_neg (by rw [hdw]; simpa [foldStr_eq_nil_iff] using h0), if_neg h0]
        rfl
  | fuel + 1, acc, r => by
      have hdw : (foldStr r).dropWhile isOWS = foldStr (r.dropWhile isOWS) :=
        foldStr_dropWhile asciiLower_isOWS r
      cases hdw0 : r.dropWhile isOWS with
      | nil =>
          rw [parseParams_eval_end (by rw [hdw, hdw0]; rfl) fuel (acc.map foldParam),
            parseParams_eval_end hdw0 fuel acc]
          rfl
      | cons c r2 =>
          by_cases hc : c = ';'
          · subst hc
            have hdwF : (foldStr r).dropWhile isOWS = ';' :: foldStr r2 := by
              rw [hdw, hdw0]
              rfl
            rw [parseParams_eval_semi hdwF fuel (acc.map foldParam),
              parseParams_eval_semi hdw0 fuel acc]
            have hdw2 : (foldStr r2).dropWhile isOWS = foldStr (r2.dropWhile isOWS) :=
              foldStr_dropWhile asciiLower_isOWS r2
            by_cases h2 : r2 = []
            · rw [if_pos (by rw [h2]; rfl), if_pos h2]
              rfl
            · rw [if_neg (by simpa [foldStr_eq_nil_iff] using h2), if_neg h2]
              by_cases h3 : r2.dropWhile isOWS = []
              · rw [if_pos (by rw [hdw2, h3]; rfl), if_pos h3]
                rfl
              · rw [if_neg (by rw [hdw2]; simpa [foldStr_eq_nil_iff] using h3),
                  if_neg h3]
                have htwk : ((foldStr r2).dropWhile isOWS).takeWhile isTokenChar =
                    foldStr ((r2.dropWhile isOWS).takeWhile isTokenChar) := by
                  rw [hdw2]
                  exact foldStr_takeWhile asciiLower_isTokenChar _
                by_cases h4 : (r2.dropWhile isOWS).takeWhile isTokenChar = []
                · rw [if_pos (by rw [htwk, h4]; rfl), if_pos h4]
                  rfl
                · rw [if_neg (by rw [htwk]; simpa [foldStr_eq_nil_iff] using h4),
                    if_neg h4]
                  have hdropF : ((foldStr r2).dropWhile isOWS).drop
                      (((foldStr r2).dropWhile isOWS).takeWhile isTokenChar).length =
                      foldStr ((r2.dropWhile isOWS).drop
                        ((r2.dropWhile isOWS).takeWhile isTokenChar).length) := by
                    rw [htwk, hdw2, foldStr_length, foldStr_drop]
                  cases hdrop : (r2.dropWhile isOWS).drop
                      ((r2.dropWhile isOWS).takeWhile isTokenChar).length with
                  | nil =>
                      rw [hdrop] at hdropF
                      rw [hdropF]
                      rfl
                  | cons d r4 =>
                      rw [hdrop] at hdropF
                      rw [hdropF]
                      by_cases hd : d = '='
                      · subst hd
                        rw [show foldStr ('=' :: r4) = '=' :: foldStr r4 from rfl]
                        split
                        · rename_i r4' heq
                          injection heq with _ hr4
                          subst hr4
                          rw [parseValue_fold r4]
                          cases hpv : parseValue r4 with
                          | error e => rfl
                          | ok vr =>
                              obtain ⟨v, r5⟩ := vr
                              show parseParams fuel ((acc.map foldParam) ++
                                [(((foldStr r2).dropWhile isOWS).takeWhile
                                  isTokenChar, foldStr v)]) (foldStr r5) = _
                              rw [htwk]
                              rw [show (acc.map foldParam) ++
                                  [(foldStr ((r2.dropWhile isOWS).takeWhile
                                    isTokenChar), foldStr v)] =
                                  (acc ++ [((r2.dropWhile isOWS).takeWhile
                                    isTokenChar, v)]).map foldParam by
                                simp [foldParam]]
                              exact parseParams_fold fuel _ r5
                        · rename_i hbad
                          exact (hbad (foldStr r4) rfl).elim
                      · rw [show foldStr (d :: r4) = asciiLower d :: foldStr r4 from
                          rfl]
                        have hdf : ¬ asciiLower d = '=' := by
                          rw [asciiLower_eq_eqsign]
                          exact hd
                        split
                        · rename_i heq
                          injection heq with h1 _
                          exact absurd h1 hdf
                        · split
                          · rename_i heq
                            injection heq with h1 _
                            exact absurd h1 hd
                          · rfl
          · have hdwF : (foldStr r).dropWhile isOWS =
                asciiLower c :: foldStr r2 := by
              rw [hdw, hdw0]
              rfl
            have hcf : ¬ asciiLower c = ';' := by
              rw [asciiLower_eq_semi]
              exact hc
            rw [parseParams_eval_other hcf hdwF fuel (acc.map foldParam),
              parseParams_eval_other hc hdw0 fuel acc]
            rfl

/-- Folding every component of a scan result (the length is unchanged). -/
def foldScanned (r : Scanned) : Scanned :=
  { ty := foldStr r.ty, subty := foldStr r.subty, suffix := r.suffix.map foldStr,
    params := r.params.map foldParam, len := r.len }

theorem splitSuffix_eval_none {seg X : Str}
    (hsp : seg.reverse.dropWhile (fun c => ¬ c = '+') = X)
    (hX : X = [] ∨ ∃ d rsub, X = d :: rsub ∧ ¬ d = '+') :
    splitSuffix seg = (seg, none) := by
  rw [splitSuffix.eq_def]
  split
  · rename_i rsub heq
    rw [hsp] at heq
    rcases hX with rfl | ⟨d, rsub', rfl, hd⟩
    · exact List.noConfusion heq
    · injection heq with h1 _
      exact absurd h1 hd
  · rfl

theorem splitSuffix_eval_plus {seg rsub : Str}
    (hsp : seg.reverse.dropWhile (fun c => ¬ c = '+') = '+' :: rsub) :
    splitSuffix seg =
      (if seg.reverse.takeWhile (fun c => ¬ c = '+') = [] ∨ rsub = [] then
        (seg, none)
       else (rsub.reverse,
         some (seg.reverse.takeWhile (fun c => ¬ c = '+')).reverse)) := by
  rw [splitSuffix.eq_def]
  split
  · rename_i rsub' heq
    rw [hsp] at heq
    injection heq with _ h2
    subst h2
    rfl
  · rename_i hbad
    exact (hbad rsub hsp).elim

theorem foldStr_reverse (l : Str) : (foldStr l).reverse = foldStr l.reverse := by
  simp [foldStr]

/-- Case folding commutes with the suffix split. -/
theorem splitSuffix_fold (seg : Str) :
    splitSuffix (foldStr seg) =
      (foldStr (splitSuffix seg).1, ((splitSuffix seg).2).map foldStr) := by
  have hplus : ∀ c, (fun c => decide ¬ c = '+') (asciiLower c) =
      (fun c => decide ¬ c = '+') c := fun c => by simp [asciiLower_eq_plus]
  have hdwf : (foldStr seg).reverse.dropWhile (fun c => ¬ c = '+') =
      foldStr (seg.reverse.dropWhile fun c => ¬ c = '+') := by
    rw [foldStr_reverse]
    exact foldStr_dropWhile hplus _
  have htwf : (foldStr seg).reverse.takeWhile (fun c => ¬ c = '+') =
      foldStr (seg.reverse.takeWhile fun c => ¬ c = '+') := by
    rw [foldStr_reverse]
    exact foldStr_takeWhile hplus _
  cases hsp : seg.reverse.dropWhile (fun c => ¬ c = '+') with
  | nil =>
      rw [splitSuffix_eval_none hsp (.inl rfl),
        splitSuffix_eval_none (X := []) (by rw [hdwf, hsp]; rfl) (.inl rfl)]
      rfl
  | cons d rsub =>
      by_cases hd : d = '+'
      · subst hd
        have hspF : (foldStr seg).reverse.dropWhile (fun c => ¬ c = '+') =
            '+' :: foldStr rsub := by
          rw [hdwf, hsp]
          rfl
        rw [splitSuffix_eval_plus hsp, splitSuffix_eval_plus hspF]
        by_cases hcond : seg.reverse.takeWhile (fun c => ¬ c = '+') = [] ∨ rsub = []
        · rw [if_pos hcond, if_pos ?side]
          case side =>
            rcases hcond with h | h
            · exact .inl (by rw [htwf, h]; rfl)
            · exact .inr (by rw [h]; rfl)
          rfl
        · rw [if_neg ?sideF, if_neg hcond]
          case sideF =>
            intro hor
            apply hcond
            rcases hor with h | h
            · rw [htwf] at h
              exact .inl (foldStr_eq_nil_iff.mp h)
            · exact .inr (foldStr_eq_nil_iff.mp h)
          rw [htwf]
          rw [foldStr_reverse, foldStr_reverse]
          rfl
      · have hdf : ¬ asciiLower d = '+' := by
          rw [asciiLower_eq_plus]
          exact hd
        rw [splitSuffix_eval_none hsp (.inr ⟨d, rsub, rfl, hd⟩),
          splitSuffix_eval_none (X := asciiLower d :: foldStr rsub)
            (by rw [hdwf, hsp]; rfl) (.inr ⟨asciiLower d, foldStr rsub, rfl, hdf⟩)]
        rfl

theorem scan_eval_noslash {s X : Str}
    (hds : s.drop (s.takeWhile isTokenChar).length = X)
    (hX : X = [] ∨ ∃ c r2, X = c :: r2 ∧ ¬ c = '/') :
    scan s = .error .MissingSlash := by
  rw [scan]
  split
  · rename_i r2 heq
    rw [hds] at heq
    rcases hX with rfl | ⟨c, r2', rfl, hc⟩
    · exact List.noConfusion heq
    · injection heq with h1 _
      exact absurd h1 hc
  · rfl

theorem scan_eval_slash {s r2 : Str}
    (hds : s.drop (s.takeWhile isTokenChar).length = '/' :: r2) :
    scan s =
      (if s.takeWhile isTokenChar = [] then .error .InvalidType
       else if r2.takeWhile isTokenChar = [] then .error .InvalidSubtype
       else
         match parseParams (r2.drop (r2.takeWhile isTokenChar).length).length []
             (r2.drop (r2.takeWhile isTokenChar).length) with
         | .ok (ps, sig) =>
             .ok { ty := s.takeWhile isTokenChar,
                   subty := (splitSuffix (r2.takeWhile isTokenChar)).1,
                   suffix := (splitSuffix (r2.takeWhile isTokenChar)).2,
                   params := ps,
                   len := s.length - sig.length }
         | .error e => .error e) := by
  rw [scan]
  split
  · rename_i r2' heq
    rw [hds] at heq
    injection heq with _ h2
    subst h2
    rfl
  · rename_i hbad
    exact (hbad r2 hds).elim

/-- Case folding commutes with the whole validator: scanning the folded
string succeeds or fails exactly as scanning the original, with all recovered
components folded and the significant length unchanged (§4.2's
case-insensitive identity model). -/
theorem scan_fold (s : Str) : scan (foldStr s) = (scan s).map foldScanned := by
  have htwty : (foldStr s).takeWhile isTokenChar =
      foldStr (s.takeWhile isTokenChar) := foldStr_takeWhile asciiLower_isTokenChar s
  have hdropty : (foldStr s).drop ((foldStr s).takeWhile isTokenChar).length =
      foldStr (s.drop (s.takeWhile isTokenChar).length) := by
    rw [htwty, foldStr_length, foldStr_drop]
  cases hds : s.drop (s.takeWhile isTokenChar).length with
  | nil =>
      rw [scan_eval_noslash hds (.inl rfl),
        scan_eval_noslash (X := []) (by rw [hdropty, hds]; rfl) (.inl rfl)]
      rfl
  | cons c r2 =>
      by_cases hc : c = '/'
      · subst hc
        have hdsF : (foldStr s).drop ((foldStr s).takeWhile isTokenChar).length =
            '/' :: foldStr r2 := by
          rw [hdropty, hds]
          rfl
        rw [scan_eval_slash hds, scan_eval_slash hdsF]
        have htw2 : (foldStr r2).takeWhile isTokenChar =
            foldStr (r2.takeWhile isTokenChar) :=
          foldStr_takeWhile asciiLower_isTokenChar r2
        by_cases hty0 : s.takeWhile isTokenChar = []
        · rw [if_pos hty0, if_pos (by rw [htwty, hty0]; rfl)]
          rfl
        · rw [if_neg (by rw [htwty]; simpa [foldStr_eq_nil_iff] using hty0),
            if_neg hty0]
          by_cases hseg0 : r2.takeWhile isTokenChar = []
          · rw [if_pos (by rw [htw2, hseg0]; rfl), if_pos hseg0]
            rfl
          · rw [if_neg (by rw [htw2]; simpa [foldStr_eq_nil_iff] using hseg0),
              if_neg hseg0]
            have hdrop2 : (foldStr r2).drop
                ((foldStr r2).takeWhile isTokenChar).length =
                foldStr (r2.drop (r2.takeWhile isTokenChar).length) := by
              rw [htw2, foldStr_length, foldStr_drop]
            rw [hdrop2, foldStr_length]
            have hpp := parseParams_fold
              (r2.drop (r2.takeWhile isTokenChar).length).length []
              (r2.drop (r2.takeWhile isTokenChar).length)
            rw [show (([] : List Param).map foldParam) = [] from rfl] at hpp
            rw [hpp]
            cases hres : parseParams
                (r2.drop (r2.takeWhile isTokenChar).length).length []
                (r2.drop (r2.takeWhile isTokenChar).length) with
            | error e => rfl
            | ok x =>
                obtain ⟨ps, sig⟩ := x
                show Except.ok _ = Except.ok _
                refine congrArg _ ?_
                rw [htwty, htw2, splitSuffix_fold]
                show Scanned.mk _ _ _ _ ((foldStr s).length - (foldStr sig).length) =
                  _
                rw [foldStr_length, foldStr_length]
                rfl
      · have hcf : ¬ asciiLower c = '/' := by
          rw [asciiLower_eq_slash]
          exact hc
        rw [scan_eval_noslash hds (.inr ⟨c, r2, rfl, hc⟩),
          scan_eval_noslash (X := asciiLower c :: foldStr r2)
            (by rw [hdropty, hds]; rfl)
            (.inr ⟨asciiLower c, foldStr r2, rfl, hcf⟩)]
        rfl

/-! ## Comparison helpers -/

theorem nameEqB_iff {a b : Str} : nameEqB a b = true ↔ foldStr a = foldStr b := by
  simp [nameEqB]

theorem nameEqB_refl (a : Str) : nameEqB a a = true := nameEqB_iff.mpr rfl

theorem optNameEqB_refl (o : Option Str) : optNameEqB o o = true := by
  cases o <;> simp [optNameEqB, nameEqB_refl]

theorem paramsEqB_of_map_fold : ∀ {l₁ l₂ : List Param},
    l₁.map foldParam = l₂.map foldParam → paramsEqB l₁ l₂ = true
  | [], [], _ => rfl
  | [], _ :: _, h => List.noConfusion h
  | _ :: _, [], h => List.noConfusion h
  | p :: l₁, q :: l₂, h => by
      injection h with h1 h2
      have hk : foldStr p.1 = foldStr q.1 := congrArg Prod.fst h1
      have hv : foldStr p.2 = foldStr q.2 := congrArg Prod.snd h1
      simp only [paramsEqB, Bool.and_eq_true]
      exact ⟨⟨nameEqB_iff.mpr hk, nameEqB_iff.mpr hv⟩, paramsEqB_of_map_fold h2⟩

theorem paramsEqB_refl (l : List Param) : paramsEqB l l = true :=
  paramsEqB_of_map_fold rfl

theorem eqCI_refl (m : MediaType) : MediaType.eqCI m m = true := by
  simp [MediaType.eqCI, nameEqB_refl, optNameEqB_refl, paramsEqB_refl]

theorem ParamLe_foldParam {p q : Param} :
    ParamLe (foldParam p) (foldParam q) ↔ ParamLe p q := by
  simp only [ParamLe, foldParam, nameLeB, foldStr_idem]

/-- Sorting commutes with folding: the comparator only looks at folded keys. -/
theorem sortParams_map_fold : ∀ ps : List Param,
    sortParams (ps.map foldParam) = (sortParams ps).map foldParam
  | [] => rfl
  | p :: ps => by
      show List.insertionSort ParamLe (foldParam p :: ps.map foldParam) = _
      rw [List.insertionSort]
      rw [show List.insertionSort ParamLe (ps.map foldParam) =
        (sortParams ps).map foldParam from sortParams_map_fold ps]
      rw [show (sortParams (p :: ps)).map foldParam =
        ((sortParams ps).orderedInsert ParamLe p).map foldParam from rfl]
      exact (List.map_orderedInsert ParamLe ParamLe foldParam (sortParams ps) p
        (fun a _ => ParamLe_foldParam.symm) (fun a _ => ParamLe_foldParam.symm)).symm

/-! ## Unfolding the two parse paths to the validator -/

theorem parse_eq_scan (s : Str) :
    MediaType.parse s = (scan s).map fun r =>
      { ty := r.ty, subty := r.subty, suffix := r.suffix,
        params := sortParams r.params } := by
  rw [MediaType.parse, Indices.parse]
  cases scan s <;> rfl

theorem from_str_eq_scan (s : Str) :
    MediaTypeBuf.from_str s = (scan s).map fun r =>
      { data := s.take r.len, ty := r.ty, subty := r.subty, suffix := r.suffix,
        params := sortParams r.params } := by
  rw [MediaTypeBuf.from_str, Indices.parse]
  cases scan s <;> rfl

/-! ## `replaceParam` lemmas -/

theorem replaceParam_none : ∀ {ps : List Param} {k v : Str},
    MediaType.replaceParam k v ps = none → ∀ p ∈ ps, nameEqB p.1 k = false
  | [], _, _, _, p, hp => absurd hp (List.not_mem_nil p)
  | q :: ps, k, v, h, p, hp => by
      rw [MediaType.replaceParam] at h
      by_cases hq : nameEqB q.1 k = true
      · rw [if_pos hq] at h
        exact Option.noConfusion h
      · rw [if_neg hq] at h
        rcases List.mem_cons.mp hp with rfl | hp'
        · exact Bool.not_eq_true _ ▸ Bool.of_not_eq_true hq
        · cases hrec : MediaType.replaceParam k v ps with
          | none => exact replaceParam_none hrec p hp'
          | some lv =>
              rw [hrec] at h
              exact Option.noConfusion h

theorem replaceParam_some_decomp : ∀ {ps : List Param} {k v : Str}
    {l : List Param} {old : Str},
    MediaType.replaceParam k v ps = some (l, old) →
    ∃ ps1 p ps2, ps = ps1 ++ p :: ps2 ∧ (∀ q ∈ ps1, nameEqB q.1 k = false) ∧
      nameEqB p.1 k = true ∧ old = p.2 ∧ l = ps1 ++ (p.1, v) :: ps2
  | [], _, _, _, _, h => Option.noConfusion h
  | q :: ps, k, v, l, old, h => by
      rw [MediaType.replaceParam] at h
      by_cases hq : nameEqB q.1 k = true
      · rw [if_pos hq] at h
        injection h with h
        injection h with h1 h2
        subst h2
        exact ⟨[], q, ps, rfl, by simp, hq, rfl, h1.symm ▸ rfl⟩
      · rw [if_neg hq] at h
        cases hrec : MediaType.replaceParam k v ps with
        | none =>
            rw [hrec] at h
            exact Option.noConfusion h
        | some lv =>
            rw [hrec] at h
            injection h with h
            injection h with h1 h2
            obtain ⟨ps1, p, ps2, hdec, hps1, hp, hold, hl⟩ :=
              replaceParam_some_decomp hrec
            refine ⟨q :: ps1, p, ps2, by rw [hdec]; rfl, ?_, hp, by rw [← h2, hold], ?_⟩
            · intro x hx
              rcases List.mem_cons.mp hx with rfl | hx'
              · exact Bool.not_eq_true _ ▸ Bool.of_not_eq_true hq
              · exact hps1 x hx'
            · rw [← h1, hl]
              rfl

/-! ## Well-formed buffers and canonicalization -/

/-- The invariants that `MediaTypeBuf::from_str` establishes on the stored
components. -/
def WfBuf (b : MediaTypeBuf) : Prop :=
  WfName b.ty ∧ mimeSeg b.subty b.suffix ≠ [] ∧
  (∀ c ∈ mimeSeg b.subty b.suffix, isTokenChar c = true) ∧
  splitSuffix (mimeSeg b.subty b.suffix) = (b.subty, b.suffix) ∧
  (∀ p ∈ b.params, WfParam p) ∧ b.params.Pairwise ParamLe

theorem WfName_fold {n : Str} (h : WfName n) : WfName (foldStr n) := by
  refine ⟨fun hn => h.1 (foldStr_eq_nil_iff.mp hn), fun c hc => ?_⟩
  obtain ⟨d, hd, rfl⟩ := List.mem_map.mp hc
  rw [asciiLower_isTokenChar]
  exact h.2 d hd

theorem mimeSeg_fold (subty : Str) (sfx : Option Str) :
    mimeSeg (foldStr subty) (sfx.map foldStr) = foldStr (mimeSeg subty sfx) := by
  cases sfx with
  | none => simp [mimeSeg, foldStr]
  | some x =>
      show foldStr subty ++ '+' :: foldStr x = foldStr (subty ++ '+' :: x)
      rw [foldStr_append]
      rfl

theorem from_str_wf {s : Str} {b : MediaTypeBuf}
    (h : MediaTypeBuf.from_str s = .ok b) : WfBuf b := by
  rw [from_str_eq_scan] at h
  cases hscan : scan s with
  | error e =>
      rw [hscan] at h
      exact Except.noConfusion h
  | ok r =>
      rw [hscan] at h
      injection h with h
      subst h
      obtain ⟨h1, h2, h3, h4, h5, _⟩ := scan_inv hscan
      refine ⟨h1, h2, h3, h4, ?_, sortParams_sorted r.params⟩
      intro p hp
      exact h5 p ((sortParams_perm r.params).mem_iff.mp hp)

theorem ParamLe_keyfold {p q : Param} (h : ParamLe p q) :
    ParamLe (foldStr p.1, p.2) (foldStr q.1, q.2) := by
  simpa only [ParamLe, nameLeB, foldStr_idem] using h

/-- Evaluating `canonicalize` on a well-formed buffer: the rebuilt string
re-parses in full, and the result stores the canonical string with the folded
structural components, folded keys and untouched values. -/
theorem canonicalize_eval {b : MediaTypeBuf} (hwf : WfBuf b) :
    MediaTypeBuf.canonicalize b =
      some { data := MediaTypeBuf.canonicalStr b,
             ty := foldStr b.ty, subty := foldStr b.subty,
             suffix := b.suffix.map foldStr,
             params := b.params.map fun p => (foldStr p.1, p.2) } := by
  obtain ⟨hty, hseg_ne, hseg_tok, hsplit, hps, hsorted⟩ := hwf
  have hsegf_tok : ∀ c ∈ mimeSeg (foldStr b.subty) (b.suffix.map foldStr),
      isTokenChar c = true := by
    rw [mimeSeg_fold]
    intro c hc
    obtain ⟨d, hd, rfl⟩ := List.mem_map.mp hc
    rw [asciiLower_isTokenChar]
    exact hseg_tok d hd
  have hscan := @scan_render (foldStr b.ty) (foldStr b.subty)
    (b.suffix.map foldStr)
    (b.params.map fun p => (foldStr p.1, p.2))
    (WfName_fold hty)
    (by rw [mimeSeg_fold]; exact fun hn => hseg_ne (foldStr_eq_nil_iff.mp hn))
    hsegf_tok
    (by rw [mimeSeg_fold, splitSuffix_fold, hsplit])
    (by
      intro p hp
      obtain ⟨q, hq, rfl⟩ := List.mem_map.mp hp
      exact ⟨WfName_fold (hps q hq).1, (hps q hq).2⟩)
  have hstr : MediaTypeBuf.canonicalStr b =
      renderMime (foldStr b.ty) (foldStr b.subty) (b.suffix.map foldStr) ++
        renderParams (b.params.map fun p => (foldStr p.1, p.2)) := rfl
  have hsorted2 : (b.params.map fun p => (foldStr p.1, p.2)).Pairwise ParamLe :=
    hsorted.map _ fun _ _ h => ParamLe_keyfold h
  rw [MediaTypeBuf.canonicalize]
  rw [show MediaTypeBuf.from_str (MediaTypeBuf.canonicalStr b) =
    (scan (MediaTypeBuf.canonicalStr b)).map fun r =>
      { data := (MediaTypeBuf.canonicalStr b).take r.len, ty := r.ty,
        subty := r.subty, suffix := r.suffix,
        params := sortParams r.params } from from_str_eq_scan _]
  rw [hstr, hscan]
  show some _ = some _
  refine congrArg _ ?_
  dsimp only
  rw [sortParams_of_sorted hsorted2]
  rw [← hstr, show (MediaTypeBuf.canonicalStr b).take
    (MediaTypeBuf.canonicalStr b).length = MediaTypeBuf.canonicalStr b from
    List.take_length _]

/-- The canonical result of a well-formed buffer is itself well-formed. -/
theorem WfBuf_canonical {b : MediaTypeBuf} (hwf : WfBuf b) :
    WfBuf { data := MediaTypeBuf.canonicalStr b,
            ty := foldStr b.ty, subty := foldStr b.subty,
            suffix := b.suffix.map foldStr,
            params := b.params.map fun p => (foldStr p.1, p.2) } := by
  obtain ⟨hty, hseg_ne, hseg_tok, hsplit, hps, hsorted⟩ := hwf
  refine ⟨WfName_fold hty, ?_, ?_, ?_, ?_, ?_⟩
  · show mimeSeg (foldStr b.subty) (b.suffix.map foldStr) ≠ []
    rw [mimeSeg_fold]
    exact fun hn => hseg_ne (foldStr_eq_nil_iff.mp hn)
  · show ∀ c ∈ mimeSeg (foldStr b.subty) (b.suffix.map foldStr), _
    rw [mimeSeg_fold]
    intro c hc
    obtain ⟨d, hd, rfl⟩ := List.mem_map.mp hc
    rw [asciiLower_isTokenChar]
    exact hseg_tok d hd
  · show splitSuffix (mimeSeg (foldStr b.subty) (b.suffix.map foldStr)) = _
    rw [mimeSeg_fold, splitSuffix_fold, hsplit]
  · intro p hp
    obtain ⟨q, hq, rfl⟩ := List.mem_map.mp hp
    exact ⟨WfName_fold (hps q hq).1, (hps q hq).2⟩
  · exact hsorted.map _ fun _ _ h => ParamLe_keyfold h

theorem foldOpt_idem (o : Option Str) :
    (o.map foldStr).map foldStr = o.map foldStr := by
  cases o <;> simp [foldStr_idem]

/-- Canonicalizing the canonical buffer rebuilds the same string. -/
theorem canonicalStr_canonical (b : MediaTypeBuf) :
    MediaTypeBuf.canonicalStr
      { data := MediaTypeBuf.canonicalStr b,
        ty := foldStr b.ty, subty := foldStr b.subty,
        suffix := b.suffix.map foldStr,
        params := b.params.map fun p => (foldStr p.1, p.2) } =
      MediaTypeBuf.canonicalStr b := by
  show renderMime (foldStr (foldStr b.ty)) (foldStr (foldStr b.subty))
      ((b.suffix.map foldStr).map foldStr) ++
      renderParams ((b.params.map fun p => (foldStr p.1, p.2)).map
        fun p => (foldStr p.1, p.2)) = _
  rw [foldStr_idem, foldStr_idem, foldOpt_idem]
  rw [show ((b.params.map fun p => (foldStr p.1, p.2)).map
      fun p => (foldStr p.1, p.2)) = b.params.map fun p => (foldStr p.1, p.2) by
    rw [List.map_map]
    exact List.map_congr_left fun p _ => by simp [foldStr_idem]]
  rfl

/-! ## Essence structure -/

theorem isOWS_ne_semi {c : Char} (h : isOWS c = true) : ¬ c = ';' := by
  rcases (by simpa [isOWS] using h : c = ' ' ∨ c = '\t') with rfl | rfl <;> decide

/-- The essence of a parsed buffer is the original-cased mime part followed by
exactly the whitespace that preceded the first `;` of the input (empty when no
parameters follow or when no such whitespace exists). -/
theorem essence_renderMime {s : Str} {b : MediaTypeBuf}
    (h : MediaTypeBuf.from_str s = .ok b) :
    ∃ ws, (∀ c ∈ ws, isOWS c = true) ∧
      MediaTypeBuf.essence b = renderMime b.ty b.subty b.suffix ++ ws := by
  rw [from_str_eq_scan] at h
  cases hscan : scan s with
  | error e =>
      rw [hscan] at h
      exact Except.noConfusion h
  | ok r =>
      rw [hscan] at h
      injection h with h
      subst h
      dsimp only
      obtain ⟨h1, _, h3, _, _, mid, hmid, hshape⟩ := scan_inv hscan
      have hpre : ∀ c ∈ r.ty ++ '/' :: mimeSeg r.subty r.suffix,
          (fun c => decide ¬ c = ';') c = true := by
        intro c hc
        simp only [decide_eq_true_eq]
        rcases List.mem_append.mp hc with hc | hc
        · exact isTokenChar_ne_semi (h1.2 c hc)
        · rcases List.mem_cons.mp hc with rfl | hc
          · decide
          · exact isTokenChar_ne_semi (h3 c hc)
      show ∃ ws, _ ∧ (s.take r.len).takeWhile (fun c => ¬ c = ';') = _
      rw [hmid]
      rcases hshape with rfl | ⟨ws, rest, rfl, hws⟩
      · refine ⟨[], by simp, ?_⟩
        rw [List.append_nil, renderMime_eq]
        rw [takeWhile_all hpre]
        simp
      · refine ⟨ws, hws, ?_⟩
        have hall : ∀ c ∈ (r.ty ++ '/' :: mimeSeg r.subty r.suffix) ++ ws,
            (fun c => decide ¬ c = ';') c = true := by
          intro c hc
          rcases List.mem_append.mp hc with hc | hc
          · exact hpre c hc
          · simp only [decide_eq_true_eq]
            exact isOWS_ne_semi (hws c hc)
        have hshape2 : r.ty ++ '/' :: (mimeSeg r.subty r.suffix ++
            (ws ++ ';' :: rest)) =
            ((r.ty ++ '/' :: mimeSeg r.subty r.suffix) ++ ws) ++ ';' :: rest := by
          simp
        rw [hshape2, takeWhile_append_stop hall (by simp) rest, renderMime_eq]

/-! ## Claims -/

/-- C1: For every string `s` that `MediaType::parse` accepts, producing media
type `m`, parsing the `Display` rendering of `m` succeeds and yields a media
type equal to `m` under the defined `PartialEq` (case-insensitive on type,
subtype, suffix and the sorted parameter list). -/
theorem C1_round_trip (s : Str) (m : MediaType)
    (h : MediaType.parse s = .ok m) :
    ∃ m2, MediaType.parse (MediaType.display m) = .ok m2 ∧
      MediaType.eqCI m2 m = true := by
  rw [parse_eq_scan] at h
  cases hscan : scan s with
  | error e =>
      rw [hscan] at h
      exact Except.noConfusion h
  | ok r =>
      rw [hscan] at h
      injection h with h
      subst h
      obtain ⟨h1, h2, h3, h4, h5, _⟩ := scan_inv hscan
      have hps : ∀ p ∈ sortParams r.params, WfParam p := fun p hp =>
        h5 p ((sortParams_perm r.params).mem_iff.mp hp)
      have hscan2 := @scan_render r.ty r.subty
        r.suffix (sortParams r.params) h1 h2 h3 h4 hps
      refine ⟨⟨r.ty, r.subty, r.suffix, sortParams r.params⟩, ?_, eqCI_refl _⟩
      rw [show MediaType.display
          ⟨r.ty, r.subty, r.suffix, sortParams r.params⟩ =
          renderMime r.ty r.subty r.suffix ++ renderParams (sortParams r.params)
          from rfl]
      rw [parse_eq_scan, hscan2]
      refine congrArg Except.ok ?_
      dsimp only
      rw [sortParams_of_sorted (sortParams_sorted r.params)]

/-- Witness for C1 at a concrete input. -/
theorem C1_round_trip_witness :
    ∃ m2, MediaType.parse (MediaType.display
        ⟨['a'], ['b'], none, [(['k'], ['V'])]⟩) = .ok m2 ∧
      MediaType.eqCI m2 ⟨['a'], ['b'], none, [(['k'], ['V'])]⟩ = true :=
  C1_round_trip ['a', '/', 'b', ';', ' ', 'k', '=', 'V'] _ rfl

theorem optNameEqB_of_map_fold : ∀ {o₁ o₂ : Option Str},
    o₁.map foldStr = o₂.map foldStr → optNameEqB o₁ o₂ = true
  | none, none, _ => rfl
  | some a, some b, h => by
      injection h with h
      exact nameEqB_iff.mpr h
  | none, some _, h => Option.noConfusion h
  | some _, none, h => Option.noConfusion h

/-- C2: `MediaType` equality is ASCII-case-insensitive on every field,
including parameter values: two parseable strings with the same ASCII case
folding parse to equal media types, while `get_param` still returns the
originally-cased value text (`charset=UTF-8` versus `CHARSET=utf-8`). -/
theorem C2_case_insensitive :
    (∀ (s1 s2 : Str) (m1 : MediaType), foldStr s1 = foldStr s2 →
      MediaType.parse s1 = .ok m1 →
      ∃ m2, MediaType.parse s2 = .ok m2 ∧ MediaType.eqCI m1 m2 = true) ∧
    (MediaType.parse ['i', 'm', 'a', 'g', 'e', '/', 's', 'v', 'g', '+', 'x',
        'm', 'l', ';', ' ', 'c', 'h', 'a', 'r', 's', 'e', 't', '=', 'U', 'T',
        'F', '-', '8']).map
      (fun m => m.get_param ['c', 'h', 'a', 'r', 's', 'e', 't']) =
      .ok (some ['U', 'T', 'F', '-', '8']) ∧
    (MediaType.parse ['I', 'M', 'A', 'G', 'E', '/', 'S', 'V', 'G', '+', 'X',
        'M', 'L', ';', ' ', 'C', 'H', 'A', 'R', 'S', 'E', 'T', '=', 'u', 't',
        'f', '-', '8']).map
      (fun m => m.get_param ['c', 'h', 'a', 'r', 's', 'e', 't']) =
      .ok (some ['u', 't', 'f', '-', '8']) := by
  refine ⟨?_, rfl, rfl⟩
  intro s1 s2 m1 hf h1
  rw [parse_eq_scan] at h1
  cases hscan1 : scan s1 with
  | error e =>
      rw [hscan1] at h1
      exact Except.noConfusion h1
  | ok r1 =>
      rw [hscan1] at h1
      injection h1 with h1
      subst h1
      have hfold1 := scan_fold s1
      rw [hf, scan_fold s2, hscan1] at hfold1
      cases hscan2 : scan s2 with
      | error e =>
          rw [hscan2] at hfold1
          exact Except.noConfusion hfold1
      | ok r2 =>
          rw [hscan2] at hfold1
          injection hfold1 with hfold1
          have e1 : foldStr r2.ty = foldStr r1.ty :=
            congrArg Scanned.ty hfold1
          have e2 : foldStr r2.subty = foldStr r1.subty :=
            congrArg Scanned.subty hfold1
          have e3 : r2.suffix.map foldStr = r1.suffix.map foldStr :=
            congrArg Scanned.suffix hfold1
          have e4 : r2.params.map foldParam = r1.params.map foldParam :=
            congrArg Scanned.params hfold1
          refine ⟨⟨r2.ty, r2.subty, r2.suffix, sortParams r2.params⟩,
            by rw [parse_eq_scan, hscan2]; rfl, ?_⟩
          show MediaType.eqCI ⟨r1.ty, r1.subty, r1.suffix, sortParams r1.params⟩
            ⟨r2.ty, r2.subty, r2.suffix, sortParams r2.params⟩ = true
          simp only [MediaType.eqCI, Bool.and_eq_true]
          refine ⟨⟨⟨nameEqB_iff.mpr e1.symm, nameEqB_iff.mpr e2.symm⟩,
            optNameEqB_of_map_fold ?_⟩, paramsEqB_of_map_fold ?_⟩
          · exact e3.symm
          · rw [← sortParams_map_fold, ← sortParams_map_fold, e4]

/-- Witness for C2 at the concrete examples. -/
theorem C2_case_insensitive_witness :
    ∃ m2, MediaType.parse ['t', 'e', 'x', 't', '/', 'p', 'l', 'a', 'i', 'n'] =
        .ok m2 ∧
      MediaType.eqCI ⟨['T', 'E', 'X', 'T'], ['P', 'L', 'A', 'I', 'N'],
        none, []⟩ m2 = true :=
  C2_case_insensitive.1
    ['T', 'E', 'X', 'T', '/', 'P', 'L', 'A', 'I', 'N']
    ['t', 'e', 'x', 't', '/', 'p', 'l', 'a', 'i', 'n'] _ (by decide) rfl

/-- C3: equality of parsed media types is independent of the encounter order
of distinct-key parameters: two parseable strings with the same mime part and
permuted parameter lists (with pairwise case-insensitively distinct keys)
parse to equal media types. -/
theorem C3_param_order (s1 s2 : Str) (r1 r2 : Scanned) (m1 m2 : MediaType)
    (h1 : scan s1 = .ok r1) (h2 : scan s2 = .ok r2)
    (hty : r1.ty = r2.ty) (hsub : r1.subty = r2.subty)
    (hsfx : r1.suffix = r2.suffix)
    (hperm : List.Perm r1.params r2.params)
    (hdist : r1.params.Pairwise fun p q => foldStr p.1 ≠ foldStr q.1)
    (hm1 : MediaType.parse s1 = .ok m1) (hm2 : MediaType.parse s2 = .ok m2) :
    MediaType.eqCI m1 m2 = true := by
  rw [parse_eq_scan, h1] at hm1
  rw [parse_eq_scan, h2] at hm2
  injection hm1 with hm1
  injection hm2 with hm2
  subst hm1
  subst hm2
  have hperm2 : List.Perm (sortParams r1.params) (sortParams r2.params) :=
    ((sortParams_perm r1.params).trans hperm).trans
      (sortParams_perm r2.params).symm
  have hdist2 : (sortParams r1.params).Pairwise
      fun p q => foldStr p.1 ≠ foldStr q.1 :=
    ((sortParams_perm r1.params).pairwise_iff fun h => h.symm).mpr hdist
  have heq := sorted_perm_eq hperm2 (sortParams_sorted _) (sortParams_sorted _)
    hdist2
  show MediaType.eqCI ⟨r1.ty, r1.subty, r1.suffix, sortParams r1.params⟩
    ⟨r2.ty, r2.subty, r2.suffix, sortParams r2.params⟩ = true
  rw [hty, hsub, hsfx, heq]
  exact eqCI_refl _

/-- Witness for C3 at `a/b; x=1; y=2` versus `a/b; y=2; x=1`. -/
theorem C3_param_order_witness :
    MediaType.eqCI ⟨['a'], ['b'], none, [(['x'], ['1']), (['y'], ['2'])]⟩
      ⟨['a'], ['b'], none, [(['x'], ['1']), (['y'], ['2'])]⟩ = true :=
  C3_param_order
    ['a', '/', 'b', ';', ' ', 'x', '=', '1', ';', ' ', 'y', '=', '2']
    ['a', '/', 'b', ';', ' ', 'y', '=', '2', ';', ' ', 'x', '=', '1']
    ⟨['a'], ['b'], none, [(['x'], ['1']), (['y'], ['2'])], 13⟩
    ⟨['a'], ['b'], none, [(['y'], ['2']), (['x'], ['1'])], 13⟩
    _ _ rfl rfl rfl rfl rfl (by decide) (by decide) rfl rfl

/-- C4: the borrowed and owned representations agree: for every string that
parses, `MediaType::parse` and `MediaTypeBuf::from_str` return the same type,
subtype and suffix slices and the identical parameter sequence, and the two
values compare equal under the cross-type `PartialEq`. -/
theorem C4_borrowed_owned_agree (s : Str) (m : MediaType) (b : MediaTypeBuf)
    (hm : MediaType.parse s = .ok m) (hb : MediaTypeBuf.from_str s = .ok b) :
    b.ty = m.ty ∧ b.subty = m.subty ∧ b.suffix = m.suffix ∧
    b.params = m.params ∧ MediaTypeBuf.eqMT b m = true := by
  rw [parse_eq_scan] at hm
  rw [from_str_eq_scan] at hb
  cases hscan : scan s with
  | error e =>
      rw [hscan] at hm
      exact Except.noConfusion hm
  | ok r =>
      rw [hscan] at hm
      rw [hscan] at hb
      injection hm with hm
      injection hb with hb
      subst hm
      subst hb
      refine ⟨rfl, rfl, rfl, rfl, ?_⟩
      simp [MediaTypeBuf.eqMT, nameEqB_refl, optNameEqB_refl, paramsEqB_refl]

/-- Witness for C4 at a concrete input. -/
theorem C4_borrowed_owned_agree_witness :
    (⟨['a', '/', 'b', ';', ' ', 'k', '=', 'V'], ['a'], ['b'], none,
        [(['k'], ['V'])]⟩ : MediaTypeBuf).ty =
      (⟨['a'], ['b'], none, [(['k'], ['V'])]⟩ : MediaType).ty ∧
    (⟨['a', '/', 'b', ';', ' ', 'k', '=', 'V'], ['a'], ['b'], none,
        [(['k'], ['V'])]⟩ : MediaTypeBuf).subty =
      (⟨['a'], ['b'], none, [(['k'], ['V'])]⟩ : MediaType).subty ∧
    (⟨['a', '/', 'b', ';', ' ', 'k', '=', 'V'], ['a'], ['b'], none,
        [(['k'], ['V'])]⟩ : MediaTypeBuf).suffix =
      (⟨['a'], ['b'], none, [(['k'], ['V'])]⟩ : MediaType).suffix ∧
    (⟨['a', '/', 'b', ';', ' ', 'k', '=', 'V'], ['a'], ['b'], none,
        [(['k'], ['V'])]⟩ : MediaTypeBuf).params =
      (⟨['a'], ['b'], none, [(['k'], ['V'])]⟩ : MediaType).params ∧
    MediaTypeBuf.eqMT
      ⟨['a', '/', 'b', ';', ' ', 'k', '=', 'V'], ['a'], ['b'], none,
        [(['k'], ['V'])]⟩
      ⟨['a'], ['b'], none, [(['k'], ['V'])]⟩ = true :=
  C4_borrowed_owned_agree ['a', '/', 'b', ';', ' ', 'k', '=', 'V'] _ _ rfl rfl

theorem keyfold_idem (ps : List Param) :
    ((ps.map fun p => (foldStr p.1, p.2)).map fun p => (foldStr p.1, p.2)) =
      ps.map fun p => (foldStr p.1, p.2) := by
  rw [List.map_map]
  exact List.map_congr_left fun p _ => by simp [foldStr_idem]

/-- C5: for every `MediaTypeBuf`, `canonicalize` succeeds (the rebuilt string
re-parses), and the resulting underlying string is exactly the canonical
string: type, subtype, suffix and parameter keys ASCII-lowercased, parameter
values byte-for-byte unchanged, `"; "` before each parameter, and no trailing
separator or whitespace (the stored buffer is the whole rebuilt string). -/
theorem C5_canonicalize (s : Str) (b : MediaTypeBuf)
    (h : MediaTypeBuf.from_str s = .ok b) :
    ∃ b2, MediaTypeBuf.canonicalize b = some b2 ∧
      b2.data = MediaTypeBuf.canonicalStr b ∧
      b2.data =
        renderMime (foldStr b.ty) (foldStr b.subty) (b.suffix.map foldStr) ++
          renderParams (b.params.map fun p => (foldStr p.1, p.2)) :=
  ⟨_, canonicalize_eval (from_str_wf h), rfl, rfl⟩

/-- Witness for C5 at a concrete input. -/
theorem C5_canonicalize_witness :
    ∃ b2, MediaTypeBuf.canonicalize
        ⟨['A', '/', 'B', ';', ' ', 'K', '=', 'v'], ['A'], ['B'], none,
          [(['K'], ['v'])]⟩ = some b2 ∧
      b2.data = MediaTypeBuf.canonicalStr
        ⟨['A', '/', 'B', ';', ' ', 'K', '=', 'v'], ['A'], ['B'], none,
          [(['K'], ['v'])]⟩ ∧
      b2.data =
        renderMime (foldStr ['A']) (foldStr ['B']) (Option.map foldStr none) ++
          renderParams ([(['K'], ['v'])].map fun p => (foldStr p.1, p.2)) :=
  C5_canonicalize ['A', '/', 'B', ';', ' ', 'K', '=', 'v'] _ rfl

/-- C6: canonicalization is idempotent: canonicalizing the buffer parsed from
any parseable string twice yields the same value (and hence the same
underlying string) as canonicalizing it once. -/
theorem C6_canonicalize_idem (s : Str) (b : MediaTypeBuf)
    (h : MediaTypeBuf.from_str s = .ok b) :
    ∃ b2, MediaTypeBuf.canonicalize b = some b2 ∧
      MediaTypeBuf.canonicalize b2 = some b2 := by
  have hwf := from_str_wf h
  refine ⟨_, canonicalize_eval hwf, ?_⟩
  rw [canonicalize_eval (WfBuf_canonical hwf)]
  refine congrArg some ?_
  rw [canonicalStr_canonical b]
  show MediaTypeBuf.mk _ (foldStr (foldStr b.ty)) (foldStr (foldStr b.subty))
    ((b.suffix.map foldStr).map foldStr) _ = _
  rw [foldStr_idem, foldStr_idem, foldOpt_idem, keyfold_idem]

/-- Witness for C6 at a concrete input. -/
theorem C6_canonicalize_idem_witness :
    ∃ b2, MediaTypeBuf.canonicalize
        ⟨['A', '/', 'B'], ['A'], ['B'], none, []⟩ = some b2 ∧
      MediaTypeBuf.canonicalize b2 = some b2 :=
  C6_canonicalize_idem ['A', '/', 'B'] _ rfl

theorem find?_pred {p : Param → Bool} {l : List Param} {x : Param}
    (h : l.find? p = some x) : p x = true :=
  List.find?_some h

theorem get_param_insert {ps : List Param} {k v : Str}
    (hnone : ∀ p ∈ ps, nameEqB p.1 k = false) :
    ((sortParams (ps ++ [(k, v)])).find? fun p => nameEqB p.1 k).map
      Prod.snd = some v := by
  have hmem : (k, v) ∈ sortParams (ps ++ [(k, v)]) :=
    (sortParams_perm _).mem_iff.mpr (by simp)
  have hsome : ((sortParams (ps ++ [(k, v)])).find? fun p =>
      nameEqB p.1 k).isSome :=
    List.find?_isSome.mpr ⟨(k, v), hmem, nameEqB_refl k⟩
  obtain ⟨x, hx⟩ := Option.isSome_iff_exists.mp hsome
  have hpx : nameEqB x.1 k = true := find?_pred hx
  have hxmem : x ∈ ps ++ [(k, v)] :=
    (sortParams_perm _).mem_iff.mp (List.mem_of_find?_eq_some hx)
  rcases List.mem_append.mp hxmem with hin | hin
  · rw [hnone x hin] at hpx
    exact Bool.noConfusion hpx
  · have hxeq : x = (k, v) := by simpa using hin
    rw [hx, hxeq]
    rfl

/-- C7: `set_param` with a case-insensitively matching key replaces exactly
that entry's value and returns the previous value; with no matching key it
inserts the pair and re-sorts, returning `None`, after which `get_param`
finds the new value and every previously present key still resolves. -/
theorem C7_set_param :
    (∀ (m : MediaType) (k v : Str) (lv : List Param × Str),
      MediaType.replaceParam k v m.params = some lv →
      MediaType.set_param m k v = ({ m with params := lv.1 }, some lv.2) ∧
      ∃ ps1 p ps2, m.params = ps1 ++ p :: ps2 ∧ nameEqB p.1 k = true ∧
        lv.2 = p.2 ∧ lv.1 = ps1 ++ (p.1, v) :: ps2) ∧
    (∀ (m : MediaType) (k v : Str),
      MediaType.replaceParam k v m.params = none →
      MediaType.set_param m k v =
        ({ m with params := sortParams (m.params ++ [(k, v)]) }, none) ∧
      (sortParams (m.params ++ [(k, v)])).Pairwise ParamLe ∧
      MediaType.get_param { m with params := sortParams (m.params ++ [(k, v)]) }
        k = some v ∧
      (∀ k2 w, MediaType.get_param m k2 = some w →
        ∃ w2, MediaType.get_param
          { m with params := sortParams (m.params ++ [(k, v)]) } k2 =
            some w2)) := by
  constructor
  · intro m k v lv h
    refine ⟨by rw [MediaType.set_param, h], ?_⟩
    obtain ⟨ps1, p, ps2, hdec, _, hp, hold, hl⟩ := replaceParam_some_decomp h
    exact ⟨ps1, p, ps2, hdec, hp, hold, hl⟩
  · intro m k v h
    have hnone := replaceParam_none h
    refine ⟨by rw [MediaType.set_param, h], sortParams_sorted _, ?_, ?_⟩
    · exact get_param_insert hnone
    · intro k2 w hw
      rw [MediaType.get_param] at hw
      obtain ⟨p, hfind, _⟩ := Option.map_eq_some'.mp hw
      have hmem : p ∈ sortParams (m.params ++ [(k, v)]) :=
        (sortParams_perm _).mem_iff.mpr
          (by simp [List.mem_of_find?_eq_some hfind])
      have hsome : ((sortParams (m.params ++ [(k, v)])).find? fun q =>
          nameEqB q.1 k2).isSome :=
        List.find?_isSome.mpr ⟨p, hmem, find?_pred hfind⟩
      obtain ⟨x, hx⟩ := Option.isSome_iff_exists.mp hsome
      exact ⟨x.2, by rw [MediaType.get_param, hx]; rfl⟩

/-- Witness for C7: both branches at concrete inputs. -/
theorem C7_set_param_witness :
    (MediaType.set_param ⟨['a'], ['b'], none, [(['K'], ['x'])]⟩ ['k'] ['y'] =
      ({ ty := ['a'], subty := ['b'], suffix := none,
         params := [(['K'], ['y'])] }, some ['x']) ∧
      ∃ ps1 p ps2, [(['K'], ['x'])] = ps1 ++ p :: ps2 ∧
        nameEqB p.1 ['k'] = true ∧ (['x'] : Str) = p.2 ∧
        [(['K'], ['y'])] = ps1 ++ (p.1, ['y']) :: ps2) ∧
    (MediaType.set_param ⟨['a'], ['b'], none, [(['c'], ['x'])]⟩ ['d'] ['y'] =
      ({ ty := ['a'], subty := ['b'], suffix := none,
         params := sortParams ([(['c'], ['x'])] ++ [(['d'], ['y'])]) }, none) ∧
      MediaType.get_param
        { ty := ['a'], subty := ['b'], suffix := (none : Option Str),
          params := sortParams ([(['c'], ['x'])] ++ [(['d'], ['y'])]) } ['d'] =
        some ['y']) := by
  refine ⟨?_, ?_⟩
  · have h := C7_set_param.1 ⟨['a'], ['b'], none, [(['K'], ['x'])]⟩ ['k'] ['y']
      ([(['K'], ['y'])], ['x']) rfl
    exact ⟨h.1, h.2⟩
  · have h := C7_set_param.2 ⟨['a'], ['b'], none, [(['c'], ['x'])]⟩ ['d'] ['y'] rfl
    exact ⟨h.1, h.2.2.1⟩

/-- C8 fails as stated: with whitespace allowed before an interior `;`
(`OWS` is permitted around `;`), the essence of `a/b ; k=v` is `a/b ` — the
prefix of the stored buffer before the first `;` — which carries a trailing
space and is not the bare mime rendering. -/
theorem C8_essence_counterexample :
    MediaTypeBuf.from_str ['a', '/', 'b', ' ', ';', ' ', 'k', '=', 'v'] =
      .ok ⟨['a', '/', 'b', ' ', ';', ' ', 'k', '=', 'v'], ['a'], ['b'], none,
        [(['k'], ['v'])]⟩ ∧
    MediaTypeBuf.essence ⟨['a', '/', 'b', ' ', ';', ' ', 'k', '=', 'v'], ['a'],
      ['b'], none, [(['k'], ['v'])]⟩ = ['a', '/', 'b', ' '] ∧
    ¬ MediaTypeBuf.essence ⟨['a', '/', 'b', ' ', ';', ' ', 'k', '=', 'v'],
      ['a'], ['b'], none, [(['k'], ['v'])]⟩ = renderMime ['a'] ['b'] none :=
  ⟨rfl, rfl, by decide⟩

/-- C8 (amended): `essence` returns the prefix of the stored buffer up to but
not including the first `;` (the whole buffer when no `;` is present); this
equals the original-cased `type/subtype[+suffix]` rendering followed by
exactly the whitespace that preceded the first `;` in the input — in
particular it never carries a trailing `;`, and carries no trailing
whitespace whenever the mime part of the input is immediately followed by
`;` or end of input (as in inputs ending in a trailing `"; "`). -/
theorem C8_essence_amended (s : Str) (b : MediaTypeBuf)
    (h : MediaTypeBuf.from_str s = .ok b) :
    MediaTypeBuf.essence b = b.data.takeWhile (fun c => ¬ c = ';') ∧
    ∃ ws, (∀ c ∈ ws, isOWS c = true) ∧
      MediaTypeBuf.essence b = renderMime b.ty b.subty b.suffix ++ ws :=
  ⟨rfl, essence_renderMime h⟩

/-- Witness for the amended C8 at a trailing-`"; "` input. -/
theorem C8_essence_amended_witness :
    MediaTypeBuf.essence ⟨['a', '/', 'b'], ['a'], ['b'], none, []⟩ =
      (['a', '/', 'b'] : Str).takeWhile (fun c => ¬ c = ';') ∧
    ∃ ws, (∀ c ∈ ws, isOWS c = true) ∧
      MediaTypeBuf.essence ⟨['a', '/', 'b'], ['a'], ['b'], none, []⟩ =
        renderMime ['a'] ['b'] none ++ ws :=
  C8_essence_amended ['a', '/', 'b', ';', ' '] _ rfl

/-- C9: each of the six malformed inputs is rejected by both parsing entry
points with a specific, stable error kind naming the grammar rule that
failed: no slash, empty subtype, empty type, empty parameter key (for both
the bare trailing `;` and `=v`), and empty parameter value. -/
theorem C9_malformed_inputs :
    MediaType.parse ['n', 'o', 's', 'l', 'a', 's', 'h'] =
      .error .MissingSlash ∧
    MediaType.parse ['a', '/'] = .error .InvalidSubtype ∧
    MediaType.parse ['/', 'b'] = .error .InvalidType ∧
    MediaType.parse ['a', '/', 'b', ';'] = .error .InvalidKey ∧
    MediaType.parse ['a', '/', 'b', ';', ' ', '=', 'v'] = .error .InvalidKey ∧
    MediaType.parse ['a', '/', 'b', ';', ' ', 'k', '='] =
      .error .InvalidValue ∧
    MediaTypeBuf.from_str ['n', 'o', 's', 'l', 'a', 's', 'h'] =
      .error .MissingSlash ∧
    MediaTypeBuf.from_str ['a', '/'] = .error .InvalidSubtype ∧
    MediaTypeBuf.from_str ['/', 'b'] = .error .InvalidType ∧
    MediaTypeBuf.from_str ['a', '/', 'b', ';'] = .error .InvalidKey ∧
    MediaTypeBuf.from_str ['a', '/', 'b', ';', ' ', '=', 'v'] =
      .error .InvalidKey ∧
    MediaTypeBuf.from_str ['a', '/', 'b', ';', ' ', 'k', '='] =
      .error .InvalidValue :=
  ⟨rfl, rfl, rfl, rfl, rfl, rfl, rfl, rfl, rfl, rfl, rfl, rfl⟩

/-- C10: when `set_param` finds an existing case-insensitively matching key,
the stored key's original casing is preserved (only the value slot changes,
so `Display` still renders the previously stored key text), and every other
parameter pair is left byte-for-byte unchanged. -/
theorem C10_replace_preserves_key (m : MediaType) (k v : Str)
    (lv : List Param × Str)
    (h : MediaType.replaceParam k v m.params = some lv) :
    ∃ ps1 p ps2, m.params = ps1 ++ p :: ps2 ∧
      (∀ q ∈ ps1, nameEqB q.1 k = false) ∧ nameEqB p.1 k = true ∧
      (MediaType.set_param m k v).1.params = ps1 ++ (p.1, v) :: ps2 ∧
      (MediaType.set_param m k v).1.params.map Prod.fst =
        m.params.map Prod.fst ∧
      (MediaType.set_param m k v).2 = some p.2 ∧
      MediaType.display (MediaType.set_param m k v).1 =
        renderMime m.ty m.subty m.suffix ++
          renderParams (ps1 ++ (p.1, v) :: ps2) := by
  obtain ⟨ps1, p, ps2, hdec, hps1, hp, hold, hl⟩ := replaceParam_some_decomp h
  have hsp : MediaType.set_param m k v = ({ m with params := lv.1 }, some lv.2) := by
    rw [MediaType.set_param, h]
  refine ⟨ps1, p, ps2, hdec, hps1, hp, ?_, ?_, ?_, ?_⟩
  · rw [hsp, hl]
  · rw [hsp, hl, hdec]
    simp
  · rw [hsp, hold]
  · rw [hsp, hl]
    rfl

/-- Witness for C10 at a concrete input: the stored key `K` keeps its casing
while the caller passed `k`. -/
theorem C10_replace_preserves_key_witness :
    ∃ ps1 p ps2,
      ([(['K'], ['x']), (['z'], ['w'])] : List Param) = ps1 ++ p :: ps2 ∧
      (∀ q ∈ ps1, nameEqB q.1 ['k'] = false) ∧ nameEqB p.1 ['k'] = true ∧
      (MediaType.set_param ⟨['a'], ['b'], none,
        [(['K'], ['x']), (['z'], ['w'])]⟩ ['k'] ['y']).1.params =
        ps1 ++ (p.1, ['y']) :: ps2 ∧
      (MediaType.set_param ⟨['a'], ['b'], none,
        [(['K'], ['x']), (['z'], ['w'])]⟩ ['k'] ['y']).1.params.map Prod.fst =
        ([(['K'], ['x']), (['z'], ['w'])] : List Param).map Prod.fst ∧
      (MediaType.set_param ⟨['a'], ['b'], none,
        [(['K'], ['x']), (['z'], ['w'])]⟩ ['k'] ['y']).2 = some p.2 ∧
      MediaType.display (MediaType.set_param ⟨['a'], ['b'], none,
        [(['K'], ['x']), (['z'], ['w'])]⟩ ['k'] ['y']).1 =
        renderMime ['a'] ['b'] none ++
          renderParams (ps1 ++ (p.1, ['y']) :: ps2) :=
  C10_replace_preserves_key ⟨['a'], ['b'], none,
    [(['K'], ['x']), (['z'], ['w'])]⟩ ['k'] ['y']
    ([(['K'], ['y']), (['z'], ['w'])], ['x']) rfl

end Mediatype
